import Mathlib

/-!
Verification development for the covector release tool.

The development shallowly embeds the two files-module implementations
(`packages/files/src/index.ts` and the legacy untyped files module) and the
release orchestrator (`packages/covector/src/run.js`).  Parsed JSON/TOML/YAML
documents are modelled by the inductive `JValue`; JS objects are association
lists that preserve insertion order, as the adapter relies on key order when
serializing.  External parse/stringify primitives for TOML and YAML are
treated as parameters (the specification explicitly excludes those lexers as
external collaborators); JSON serialization is modelled concretely after
`JSON.stringify(x, null, "  ")`, and a concrete fuel-based `jsonParse` models
`JSON.parse` on the integer-numbered documents used throughout.
-/

set_option autoImplicit false

namespace Covector

/-- Model of a parsed JSON/TOML/YAML document value.  Objects keep their
fields as an insertion-ordered association list.  Numbers are modelled as
integers (every numeric field exercised by the tool is an integer). -/
inductive JValue where
  | null : JValue
  | bool : Bool → JValue
  | num : Int → JValue
  | str : String → JValue
  | arr : List JValue → JValue
  | obj : List (String × JValue) → JValue
  deriving Inhabited

namespace JValue

/-- JS truthiness of a value: `null`, `false`, `0` and the empty string are
falsy, everything else (including empty objects and arrays) is truthy. -/
def truthy : JValue → Bool
  | .null => false
  | .bool b => b
  | .num n => n != 0
  | .str s => s ≠ ""
  | .arr _ => true
  | .obj _ => true

/-- Result of the JS `typeof` operator on a modelled value; note that
`typeof null`, arrays and plain objects all report `"object"`. -/
def typeofStr : JValue → String
  | .null => "object"
  | .bool _ => "boolean"
  | .num _ => "number"
  | .str _ => "string"
  | .arr _ => "object"
  | .obj _ => "object"

end JValue

/-- First-match lookup in an insertion-ordered association list, the model of
JS property access `o[k]` on a plain object (absent key gives `undefined`,
modelled as `none`). -/
def jsLookup (k : String) : List (String × JValue) → Option JValue
  | [] => none
  | (k', v) :: rest => if k' = k then some v else jsLookup k rest

/-- Property read `v[k]` on an arbitrary value: objects look the key up,
any non-object (including arrays, whose numeric slots the tool never reads
by name) yields `undefined`. -/
def jsGetField (v : JValue) (k : String) : Option JValue :=
  match v with
  | .obj fields => jsLookup k fields
  | _ => none

/-- JS assignment `o[k] = v` on an object's field list: an existing key is
updated in place (its position is preserved), a new key is appended at the
end.  This is the in-place mutation the adapter setters perform. -/
def setField : List (String × JValue) → String → JValue → List (String × JValue)
  | [], k, v => [(k, v)]
  | (k', v') :: rest, k, v =>
    if k' = k then (k', v) :: rest else (k', v') :: setField rest k v

/-- Characters treated as whitespace by `String.prototype.trim` (the ASCII
portion, which covers all inputs handled here). -/
def jsWhitespace (c : Char) : Bool :=
  c = ' ' || c = '\t' || c = '\n' || c = '\r' || c = '\x0b' || c = '\x0c'

/-- Model of JS `String.prototype.trim` on a character list: whitespace is
dropped from both ends. -/
def trimChars (l : List Char) : List Char :=
  ((l.dropWhile jsWhitespace).reverse.dropWhile jsWhitespace).reverse

/-- Model of JS `String.prototype.trim`. -/
def jsTrim (s : String) : String := String.mk (trimChars s.data)

/-- Decimal digit test. -/
def isDigitChar (c : Char) : Bool := '0' ≤ c && c ≤ '9'

/-- ASCII letter test. -/
def isAlphaChar (c : Char) : Bool := ('a' ≤ c && c ≤ 'z') || ('A' ≤ c && c ≤ 'Z')

/-- Characters that can occur in a semantic version string (digits, letters
and the three separators).  Strings matching the semver grammar consist of
these characters only; the checker states that closure explicitly so the
grammar's whitespace-freeness is available as a lemma. -/
def semverChar (c : Char) : Bool :=
  isDigitChar c || isAlphaChar c || c = '.' || c = '-' || c = '+'

/-- Characters allowed in prerelease/build identifiers. -/
def alnumDash (c : Char) : Bool := isDigitChar c || isAlphaChar c || c = '-'

/-- Split at the first occurrence of `sep`: returns the part before it and,
when the separator occurs, the part after it. -/
def splitFirst (sep : Char) (l : List Char) : List Char × Option (List Char) :=
  match l.span (fun c => c ≠ sep) with
  | (a, []) => (a, none)
  | (a, _ :: b) => (a, some b)

/-- Numeric identifier of the semver grammar: digits only, no leading zero
(`0|[1-9]\d*`). -/
def numericIdent : List Char → Bool
  | [] => false
  | c :: rest => isDigitChar c && rest.all isDigitChar && (c ≠ '0' || rest.isEmpty)

/-- Decimal digits to a natural number. -/
def digitsToNat (l : List Char) : Nat := l.foldl (fun n c => n * 10 + (c.toNat - 48)) 0

/-- Prerelease identifier: a numeric identifier, or a nonempty alphanumeric/
hyphen identifier containing at least one non-digit
(`0|[1-9]\d*|\d*[a-zA-Z-][a-zA-Z0-9-]*`). -/
def preIdent (l : List Char) : Bool :=
  numericIdent l || (!l.isEmpty && l.all alnumDash && l.any (fun c => !isDigitChar c))

/-- Build identifier: nonempty alphanumeric/hyphen (`[0-9A-Za-z-]+`). -/
def buildIdent (l : List Char) : Bool := !l.isEmpty && l.all alnumDash

/-- Result of parsing a semantic version, mirroring what the `semver`
library's accessors (`major`, `minor`, `patch`, `prerelease`) expose. -/
structure SemVerInfo where
  major : Nat
  minor : Nat
  patch : Nat
  prerelease : Option (List String)
  deriving Repr, DecidableEq

/-- Core semver 2.0.0 grammar check and accessor computation:
`MAJOR.MINOR.PATCH` with optional `-prerelease` and `+build` parts. -/
def semverCore (l : List Char) : Option SemVerInfo :=
  if l.all semverChar then
    let (mainpre, build) := splitFirst '+' l
    let (main, pre) := splitFirst '-' mainpre
    match main.splitOn '.' with
    | [a, b, c] =>
      if numericIdent a && numericIdent b && numericIdent c then
        let preOk := match pre with
          | none => true
          | some p => (p.splitOn '.').all preIdent
        let buildOk := match build with
          | none => true
          | some bld => (bld.splitOn '.').all buildIdent
        if preOk && buildOk then
          some { major := digitsToNat a, minor := digitsToNat b, patch := digitsToNat c,
                 prerelease := pre.map (fun p => (p.splitOn '.').map String.mk) }
        else none
      else none
    | _ => none
  else none

/-- Model of the node `semver` library's parse, as called by `semver.valid`,
`semver.major`, …: the input is trimmed and an optional leading `v` is
accepted (the library's FULL regex is `^v?MAJOR.MINOR.PATCH…$` applied after
`version.trim()`). -/
def semverFull (s : String) : Option SemVerInfo :=
  let t := trimChars s.data
  match semverCore t with
  | some i => some i
  | none =>
    match t with
    | 'v' :: r => semverCore r
    | _ => none

/-- Truthiness of `semver.valid(s)` in the source. -/
def nodeSemverValid (s : String) : Bool := (semverFull s).isSome

/-- A valid semantic version in the sense of semver.org 2.0.0: the string
itself matches the grammar (no leading `v`, no surrounding whitespace).
This is the meaning of "valid semantic version v" in the specification's
round-trip property. -/
def isValidSemver (s : String) : Bool := (semverCore s.data).isSome

/-- Lower-case hex digit for a value below 16, as used by `JSON.stringify`
escapes. -/
def hexDigit (n : Nat) : Char := if n < 10 then Char.ofNat (48 + n) else Char.ofNat (87 + n)

/-- Escape of one character inside a JSON string literal, as produced by
`JSON.stringify`: quote, backslash and the named control escapes, a
`\u00XX` escape for the remaining control characters, every other
character unchanged. -/
def escJsonChar (c : Char) : List Char :=
  if c = '"' then ['\\', '"']
  else if c = '\\' then ['\\', '\\']
  else if c = '\x08' then ['\\', 'b']
  else if c = '\t' then ['\\', 't']
  else if c = '\n' then ['\\', 'n']
  else if c = '\x0c' then ['\\', 'f']
  else if c = '\r' then ['\\', 'r']
  else if c.toNat < 32 then ['\\', 'u', '0', '0', hexDigit (c.toNat / 16), hexDigit (c.toNat % 16)]
  else [c]

/-- Escaped body of a JSON string literal. -/
def escChars (s : String) : List Char := (s.data.map escJsonChar).flatten

/-- A complete JSON string literal: quote, escaped body, quote. -/
def jsQuoteChars (s : String) : List Char := '"' :: (escChars s ++ ['"'])

/-- Indentation produced by `JSON.stringify(x, null, "  ")` at nesting
depth `g`: two spaces per level. -/
def indentChars (g : Nat) : List Char := List.replicate (2 * g) ' '

/-- Model of `Array.prototype.join` over character lists: the pieces
interleaved with the separator. -/
def joinSep (sep : List Char) : List (List Char) → List Char
  | [] => []
  | [x] => x
  | x :: y :: rest => x ++ sep ++ joinSep sep (y :: rest)

mutual

/-- Serialization of one value by `JSON.stringify(x, null, "  ")` at nesting
depth `g` (the indentation already emitted for the line is not included). -/
def serVal (g : Nat) : JValue → List Char
  | .null => ['n', 'u', 'l', 'l']
  | .bool b => if b then ['t', 'r', 'u', 'e'] else ['f', 'a', 'l', 's', 'e']
  | .num n => (toString n).data
  | .str s => jsQuoteChars s
  | .arr items =>
    match items with
    | [] => ['[', ']']
    | _ => '[' :: '\n' :: (joinSep [',', '\n'] (serItems (g + 1) items) ++
        '\n' :: (indentChars g ++ [']']))
  | .obj fields =>
    match fields with
    | [] => ['\x7b', '\x7d']
    | _ => '\x7b' :: '\n' :: (joinSep [',', '\n'] (serFields (g + 1) fields) ++
        '\n' :: (indentChars g ++ ['\x7d']))

/-- Serialized lines of the items of an array, each carrying its
indentation. -/
def serItems (g : Nat) : List JValue → List (List Char)
  | [] => []
  | v :: rest => (indentChars g ++ serVal g v) :: serItems g rest

/-- Serialized lines of the fields of an object, each carrying its
indentation, quoted key, colon-space and serialized value. -/
def serFields (g : Nat) : List (String × JValue) → List (List Char)
  | [] => []
  | (k, v) :: rest =>
    (indentChars g ++ (jsQuoteChars k ++ (':' :: ' ' :: serVal g v))) :: serFields g rest

end

/-- Model of `JSON.stringify(v, null, "  ")` on a whole document. -/
def jsonStringify (v : JValue) : String := String.mk (serVal 0 v)

/-- Separator-joined text strictly before a distinguished element, given the
pieces preceding it. -/
def joinBefore (sep : List Char) (a : List (List Char)) : List Char :=
  match a with
  | [] => []
  | _ => joinSep sep a ++ sep

/-- Separator-joined text strictly after a distinguished element, given the
pieces following it. -/
def joinAfter (sep : List Char) (b : List (List Char)) : List Char :=
  match b with
  | [] => []
  | _ => sep ++ joinSep sep b

/-- Insignificant whitespace accepted between JSON tokens. -/
def jsonWs (c : Char) : Bool := c = ' ' || c = '\n' || c = '\t' || c = '\r'

/-- Skip insignificant whitespace. -/
def skipWsChars (l : List Char) : List Char := l.dropWhile jsonWs

/-- Body of a JSON string literal, after the opening quote: returns the
decoded characters and the input following the closing quote.  The named
escapes are decoded; `\uXXXX` escapes and raw control characters are
outside the model. -/
def parseStringBody : List Char → Option (List Char × List Char)
  | [] => none
  | '"' :: rest => some ([], rest)
  | '\\' :: c :: rest =>
    let dec : Option Char :=
      if c = '"' then some '"'
      else if c = '\\' then some '\\'
      else if c = '/' then some '/'
      else if c = 'b' then some '\x08'
      else if c = 't' then some '\t'
      else if c = 'n' then some '\n'
      else if c = 'f' then some '\x0c'
      else if c = 'r' then some '\r'
      else none
    match dec with
    | some d =>
      match parseStringBody rest with
      | some (s, r) => some (d :: s, r)
      | none => none
    | none => none
  | c :: rest =>
    if c.toNat < 32 then none
    else
      match parseStringBody rest with
      | some (s, r) => some (c :: s, r)
      | none => none

/-- An unsigned JSON integer literal: nonempty digits without a forbidden
leading zero, not followed by a fraction or exponent (non-integer numbers
are outside the model). -/
def parseIntDigits (l : List Char) : Option (Nat × List Char) :=
  match l.span isDigitChar with
  | ([], _) => none
  | (d :: ds, rest) =>
    if d = '0' && !ds.isEmpty then none
    else
      match rest with
      | '.' :: _ => none
      | 'e' :: _ => none
      | 'E' :: _ => none
      | _ => some (digitsToNat (d :: ds), rest)

mutual

/-- One JSON value, by recursive descent with explicit fuel; models
`JSON.parse` restricted to integer numbers. -/
def pVal : Nat → List Char → Option (JValue × List Char)
  | 0, _ => none
  | fuel + 1, input =>
    match skipWsChars input with
    | 'n' :: 'u' :: 'l' :: 'l' :: r => some (.null, r)
    | 't' :: 'r' :: 'u' :: 'e' :: r => some (.bool true, r)
    | 'f' :: 'a' :: 'l' :: 's' :: 'e' :: r => some (.bool false, r)
    | '"' :: r =>
      match parseStringBody r with
      | some (s, rest) => some (.str (String.mk s), rest)
      | none => none
    | '[' :: r =>
      match skipWsChars r with
      | ']' :: r2 => some (.arr [], r2)
      | r2 => pItems fuel r2 []
    | '\x7b' :: r =>
      match skipWsChars r with
      | '\x7d' :: r2 => some (.obj [], r2)
      | r2 => pMembers fuel r2 []
    | '-' :: r =>
      match parseIntDigits r with
      | some (n, rest) => some (.num (-(n : Int)), rest)
      | none => none
    | c :: r =>
      if isDigitChar c then
        match parseIntDigits (c :: r) with
        | some (n, rest) => some (.num (n : Int), rest)
        | none => none
      else none
    | [] => none

/-- Items of a JSON array after the opening bracket (first item pending). -/
def pItems : Nat → List Char → List JValue → Option (JValue × List Char)
  | 0, _, _ => none
  | fuel + 1, input, acc =>
    match pVal fuel input with
    | none => none
    | some (v, rest) =>
      match skipWsChars rest with
      | ',' :: r2 => pItems fuel r2 (acc ++ [v])
      | ']' :: r2 => some (.arr (acc ++ [v]), r2)
      | _ => none

/-- Members of a JSON object after the opening brace (first member
pending). -/
def pMembers : Nat → List Char → List (String × JValue) → Option (JValue × List Char)
  | 0, _, _ => none
  | fuel + 1, input, acc =>
    match skipWsChars input with
    | '"' :: r =>
      match parseStringBody r with
      | none => none
      | some (k, r2) =>
        match skipWsChars r2 with
        | ':' :: r3 =>
          match pVal fuel r3 with
          | none => none
          | some (v, r4) =>
            match skipWsChars r4 with
            | ',' :: r5 => pMembers fuel r5 (acc ++ [(String.mk k, v)])
            | '\x7d' :: r5 => some (.obj (acc ++ [(String.mk k, v)]), r5)
            | _ => none
        | _ => none
    | _ => none

end

/-- Model of `JSON.parse` (documents with integer numbers and distinct
keys; fuel is amply larger than any call depth the input can force). -/
def jsonParse (s : String) : Option JValue :=
  match pVal (2 * s.data.length + 4) s.data with
  | some (v, rest) => if skipWsChars rest = [] then some v else none
  | none => none

/-- The `File` value produced by `loadFile`: raw content plus the pieces of
the parsed path. -/
structure File where
  content : String
  path : String := ""
  filename : String := ""
  extname : String
  deriving Repr, DecidableEq

/-- JS exception classes thrown by the embedded code paths. -/
inductive JsErr where
  | referenceError (msg : String)
  | typeError (msg : String)
  | error (msg : String)
  deriving Repr, DecidableEq

/-- The `DepsKeyed` shape built by `keyDeps`: dependency name to the list of
`(depType, version value)` records, in first-sight order. -/
abbrev DepsKeyed := List (String × List (String × JValue))

/-- Truthiness of a possibly-`undefined` value. -/
def optTruthy : Option JValue → Bool
  | some v => v.truthy
  | none => false

/-- Property read `base.k` where reading from `null` throws and reading
from any other non-object yields `undefined`. -/
def jsReadProp (v : JValue) (k : String) : Except JsErr (Option JValue) :=
  match v with
  | .null => .error (.typeError ("Cannot read properties of null (reading " ++ k ++ ")"))
  | .obj fs => .ok (jsLookup k fs)
  | _ => .ok none

/-- Strict-mode property assignment `base[k] = v`: rewrites the field of an
object, throws on `null`; assignment targets that are primitives or arrays
are outside the claims' scope and modelled as type errors. -/
def jsSetProp (v : JValue) (k : String) (newV : JValue) : Except JsErr JValue :=
  match v with
  | .obj fs => .ok (.obj (setField fs k newV))
  | .null => .error (.typeError ("Cannot set properties of null (setting " ++ k ++ ")"))
  | _ => .error (.typeError ("Cannot create property " ++ k ++ " on primitive"))

/-- Model of `Object.entries`, defined for the values `keyDeps` can reach
after its `typeof === "object"` and truthiness guards (objects and
arrays). -/
def jsEntries : JValue → Option (List (String × JValue))
  | .obj fs => some fs
  | .arr items => some (items.enum.map (fun p => (toString p.1, p.2)))
  | _ => none

/-- Append an entry under `dep`, initializing `deps[dep]` to an empty list
at first sight (`if (!deps?.[dep]) deps[dep] = []` followed by a push). -/
def depsPush (deps : DepsKeyed) (dep : String) (item : String × JValue) : DepsKeyed :=
  match deps with
  | [] => [(dep, [item])]
  | (d, items) :: rest =>
    if d = dep then (d, items ++ [item]) :: rest else (d, items) :: depsPush rest dep item

/-- One entry of one dependency table in `keyDeps`: string versions are
recorded; object entries with a truthy `version` subfield are recorded with
that subfield; a `null` entry throws when its `version` is read; everything
else is skipped. -/
def keyDepsAdd (depType : String) (deps : DepsKeyed) (entry : String × JValue) :
    Except JsErr DepsKeyed :=
  match entry.2 with
  | .str s => .ok (depsPush deps entry.1 (depType, .str s))
  | .null => .error (.typeError "Cannot read properties of null (reading version)")
  | other =>
    match jsGetField other "version" with
    | some vv => if vv.truthy then .ok (depsPush deps entry.1 (depType, vv)) else .ok deps
    | none => .ok deps

/-- One dependency table in `keyDeps`: processed only when present, truthy
and of `typeof "object"`. -/
def keyDepsOne (parsed : JValue) (deps : DepsKeyed) (depType : String) :
    Except JsErr DepsKeyed :=
  match jsGetField parsed depType with
  | some dv =>
    if dv.truthy && dv.typeofStr == "object" then
      match jsEntries dv with
      | some entries => entries.foldlM (keyDepsAdd depType) deps
      | none => .ok deps
    else .ok deps
  | none => .ok deps

/-- Model of `keyDeps`: collect dependency versions from the
`dependencies`, `devDependencies` and `dev-dependencies` tables in that
order. -/
def keyDeps (parsed : JValue) : Except JsErr DepsKeyed :=
  ["dependencies", "devDependencies", "dev-dependencies"].foldlM (keyDepsOne parsed) []

/-- The `PkgMinimum` record `parsePkg` returns. -/
structure PkgMinimum where
  version : String
  versionMajor : Nat
  versionMinor : Nat
  versionPatch : Nat
  versionPrerelease : Option (List String) := none
  deps : DepsKeyed
  pkg : JValue

/-- Shared tail of the structured branches of `parsePkg`: the extracted
`version` value must be a string the `semver` library accepts (its
accessors throw otherwise), then the record is assembled; `keyDeps` runs
last, matching the source's field-evaluation order.  The YAML branch omits
`versionPrerelease` (`withPre = false`). -/
def finishStructured (withPre : Bool) (pkgDoc : JValue) (verOpt : Option JValue) :
    Except JsErr PkgMinimum :=
  match verOpt with
  | some (.str s) =>
    match semverFull s with
    | some info =>
      match keyDeps pkgDoc with
      | .ok deps =>
        .ok { version := s, versionMajor := info.major, versionMinor := info.minor,
              versionPatch := info.patch,
              versionPrerelease := if withPre then info.prerelease else none,
              deps := deps, pkg := pkgDoc }
      | .error e => .error e
    | none => .error (.typeError ("Invalid Version: " ++ s))
  | _ => .error (.typeError "Invalid version. Must be a string.")

/-- Model of `parsePkg` in `packages/files/src/index.ts`.  The TOML and
YAML lexers are external primitives and passed as parameters; `JSON.parse`
is the concrete `jsonParse`. -/
def parsePkg (tomlParse yamlParse : String → Except String JValue) (file : File) :
    Except JsErr PkgMinimum :=
  if file.content = "" then .error (.error (file.path ++ " does not have any content"))
  else if file.extname = ".toml" then
    match tomlParse file.content with
    | .error e => .error (.error e)
    | .ok parsedTOML =>
      match jsReadProp parsedTOML "package" with
      | .error e => .error e
      | .ok none => .error (.typeError "Cannot read properties of undefined (reading version)")
      | .ok (some pkgTable) =>
        match jsReadProp pkgTable "version" with
        | .error e => .error e
        | .ok verOpt => finishStructured true parsedTOML verOpt
  else if file.extname = ".json" then
    match jsonParse file.content with
    | none => .error (.error "Unexpected token in JSON")
    | some parsedJSON =>
      match jsReadProp parsedJSON "version" with
      | .error e => .error e
      | .ok verOpt => finishStructured true parsedJSON verOpt
  else if file.extname = ".yml" ∨ file.extname = ".yaml" then
    match yamlParse file.content with
    | .error e => .error (.error e)
    | .ok parsedYAML =>
      match parsedYAML with
      | .str _ => .error (.error "file improperly structured")
      | .num _ => .error (.error "file improperly structured")
      | .null => .error (.error "file improperly structured")
      | _ =>
        if !(optTruthy (jsGetField parsedYAML "name")) ||
            !(optTruthy (jsGetField parsedYAML "version")) then
          .error (.error "missing version")
        else finishStructured false parsedYAML (jsGetField parsedYAML "version")
  else
    let stringVersion := jsTrim file.content
    match semverFull stringVersion with
    | none => .error (.error "not valid version")
    | some info =>
      .ok { version := stringVersion, versionMajor := info.major, versionMinor := info.minor,
            versionPatch := info.patch, versionPrerelease := none, deps := [],
            pkg := .obj [("name", .str ""), ("version", .str stringVersion)] }

/-- Model of `stringifyPkg` in `packages/files/src/index.ts`: TOML and YAML
writers are external primitives; `.json` uses two-space-indented
`JSON.stringify` with a trailing newline; the default branch returns the
document's `version` field (usable as file content only when it is a
string). -/
def stringifyPkg (tomlStringify yamlStringify : JValue → String) (newContents : JValue)
    (extname : String) : Option String :=
  if extname = ".toml" then some (tomlStringify newContents)
  else if extname = ".json" then some (jsonStringify newContents ++ "\n")
  else if extname = ".yml" ∨ extname = ".yaml" then some (yamlStringify newContents)
  else
    match jsGetField newContents "version" with
    | some (.str s) => some s
    | _ => none

/-- The `PackageFile` record used by the adapter getters and setters. -/
structure PackageFile where
  file : Option File := none
  name : String := ""
  version : String := ""
  versionMajor : Nat := 0
  versionMinor : Nat := 0
  versionPatch : Nat := 0
  versionPrerelease : Option (List String) := none
  deps : DepsKeyed := []
  pkg : Option JValue := none

/-- The record `readPkgFile` assembles: the loaded file, the spread of the
parse result and the configured nickname. -/
def mkPackageFile (f : File) (parsed : PkgMinimum) (nickname : String) : PackageFile :=
  { file := some f, name := nickname, version := parsed.version,
    versionMajor := parsed.versionMajor, versionMinor := parsed.versionMinor,
    versionPatch := parsed.versionPatch, versionPrerelease := parsed.versionPrerelease,
    deps := parsed.deps, pkg := some parsed.pkg }

/-- Error message thrown for a dependency entry whose `version` subfield is
falsy; it names the package and the dependency. -/
def missingDepMsg (pkgName word dep : String) : String :=
  pkgName ++ " has a " ++ word ++ " on " ++ dep ++ ", and " ++ dep ++
    " does not have a version number. This cannot be published. " ++
    "Please pin it to a MAJOR.MINOR.PATCH reference."

/-- Shared body of the three dependency-kind branches of
`getPackageFileVersion` once the table is known to be truthy: an absent
entry reads as `undefined`; an entry of `typeof "object"` must carry a
truthy `version` subfield or the missing-version error is thrown (reading
`version` from a `null` entry throws a `TypeError`); any other entry is
returned as-is. -/
def getDepVersionFrom (m : JValue) (dep pkgName word : String) :
    Except JsErr (Option JValue) :=
  match jsGetField m dep with
  | none => .ok none
  | some e =>
    if e.typeofStr = "object" then
      match e with
      | .null => .error (.typeError "Cannot read properties of null (reading version)")
      | _ =>
        if optTruthy (jsGetField e "version") then .ok (jsGetField e "version")
        else .error (.error (missingDepMsg pkgName word dep))
    else .ok (some e)

/-- Model of `getPackageFileVersion` in `packages/files/src/index.ts`.  The
absent optional `dep` argument is the empty string (both are falsy and take
the same path). -/
def getPackageFileVersion (pkg : PackageFile) (property : String := "version")
    (dep : String := "") : Except JsErr (Option JValue) :=
  match pkg.file, pkg.pkg with
  | some f, some doc =>
    if doc.truthy then
      if property = "version" then
        if f.extname = ".json" then .ok (jsGetField doc "version")
        else if f.extname = ".toml" then
          match jsGetField doc "package" with
          | none => .error (.typeError "Cannot read properties of undefined (reading version)")
          | some p => jsReadProp p "version"
        else .ok (jsGetField doc "version")
      else if property = "dependencies" then
        if dep = "" || !(optTruthy (jsGetField doc "dependencies")) then .ok (some (.str ""))
        else
          match jsGetField doc "dependencies" with
          | some m => getDepVersionFrom m dep pkg.name "dependency"
          | none => .ok (some (.str ""))
      else if property = "devDependencies" then
        if dep = "" || !(optTruthy (jsGetField doc "devDependencies")) then .ok (some (.str ""))
        else
          match jsGetField doc "devDependencies" with
          | some m => getDepVersionFrom m dep pkg.name "devDependency"
          | none => .ok (some (.str ""))
      else if property = "dev-dependencies" then
        if dep = "" || !(optTruthy (jsGetField doc "dev-dependencies")) then .ok (some (.str ""))
        else
          match jsGetField doc "dev-dependencies" with
          | some m => getDepVersionFrom m dep pkg.name "devDependency"
          | none => .ok (some (.str ""))
      else .ok (some (.str ""))
    else .ok (some (.str ""))
  | _, _ => .ok (some (.str ""))

/-- The `property === "version"` assignment of `setPackageFileVersion`:
top-level `version` key for json/yaml/bare, nested `package.version` for
toml. -/
def setVersionInDoc (ext : String) (doc : JValue) (version : String) :
    Except JsErr JValue :=
  if ext = ".json" then jsSetProp doc "version" (.str version)
  else if ext = ".toml" then
    match jsGetField doc "package" with
    | none => .error (.typeError "Cannot set properties of undefined (setting version)")
    | some p => do
      let p' ← jsSetProp p "version" (.str version)
      jsSetProp doc "package" p'
  else jsSetProp doc "version" (.str version)

/-- Shared body of the dependency-kind branches of
`setPackageFileVersion`: an object entry has its `version` subfield
rewritten in place, any other entry is replaced by the version string,
preserving the entry's slot. -/
def setDepVersionIn (m : JValue) (dep version : String) : Except JsErr JValue :=
  match jsGetField m dep with
  | some e =>
    if e.typeofStr = "object" then
      match e with
      | .null => .error (.typeError "Cannot set properties of null (setting version)")
      | _ => do
        let e' ← jsSetProp e "version" (.str version)
        jsSetProp m dep e'
    else jsSetProp m dep (.str version)
  | none => jsSetProp m dep (.str version)

/-- Model of `setPackageFileVersion` in `packages/files/src/index.ts` (the
source mutates and returns `pkg`; the model returns the updated record). -/
def setPackageFileVersion (pkg : PackageFile) (version : String)
    (property : String := "version") (dep : String := "") : Except JsErr PackageFile :=
  match pkg.file, pkg.pkg with
  | some f, some doc =>
    if doc.truthy then
      if property = "version" then
        match setVersionInDoc f.extname doc version with
        | .ok doc' => .ok { pkg with pkg := some doc' }
        | .error e => .error e
      else if property = "dependencies" then
        if dep = "" || !(optTruthy (jsGetField doc "dependencies")) then .ok pkg
        else
          match jsGetField doc "dependencies" with
          | some m =>
            match setDepVersionIn m dep version with
            | .ok m' =>
              match jsSetProp doc "dependencies" m' with
              | .ok doc' => .ok { pkg with pkg := some doc' }
              | .error e => .error e
            | .error e => .error e
          | none => .ok pkg
      else if property = "devDependencies" then
        if dep = "" || !(optTruthy (jsGetField doc "devDependencies")) then .ok pkg
        else
          match jsGetField doc "devDependencies" with
          | some m =>
            match setDepVersionIn m dep version with
            | .ok m' =>
              match jsSetProp doc "devDependencies" m' with
              | .ok doc' => .ok { pkg with pkg := some doc' }
              | .error e => .error e
            | .error e => .error e
          | none => .ok pkg
      else if property = "dev-dependencies" then
        if dep = "" || !(optTruthy (jsGetField doc "dev-dependencies")) then .ok pkg
        else
          match jsGetField doc "dev-dependencies" with
          | some m =>
            match setDepVersionIn m dep version with
            | .ok m' =>
              match jsSetProp doc "dev-dependencies" m' with
              | .ok doc' => .ok { pkg with pkg := some doc' }
              | .error e => .error e
            | .error e => .error e
          | none => .ok pkg
      else .ok pkg
    else .ok pkg
  | _, _ => .ok pkg

namespace Legacy

/-- The vfile record used by the legacy (untyped) files module. -/
structure Vfile where
  contents : String
  extname : String
  path : String := ""
  deriving Repr, DecidableEq

/-- Model of `stringifyPkg` in the legacy files module.  Its `.toml` branch
evaluates `TOML.stringify(file.contents)` where no `file` is in scope in
the module, so executing that branch always raises a `ReferenceError`
before any stringifying happens. -/
def stringifyPkg (newContents : JValue) (extname : String) : Except JsErr String :=
  if extname = ".toml" then .error (.referenceError "file is not defined")
  else if extname = ".json" then .ok (jsonStringify newContents ++ "\n")
  else .error (.error "Unknown package file type.")

/-- The package-file record `readPkgFile` of the legacy module builds. -/
structure PackageFile where
  vfile : Vfile
  name : String := ""
  version : String := ""
  pkg : JValue

/-- Model of `writePkgFile` in the legacy files module: serialize
`packageFile.pkg` under the vfile's extension and write the result back
into a copy of the vfile. -/
def writePkgFile (packageFile : PackageFile) : Except JsErr Vfile :=
  match stringifyPkg packageFile.pkg packageFile.vfile.extname with
  | .ok c => .ok { packageFile.vfile with contents := c }
  | .error e => .error e

/-- Options object accepted by the legacy `changeFiles`.  Callers may also
pass a `remove` member (run.js does), but the function destructures only
`cwd` and `changeFolder`, so `remove` is carried here solely to record that
the body never reads it. -/
structure ChangeFilesOpts where
  cwd : String := ""
  changeFolder : String := ".changes"
  remove : Bool := false

/-- Model of `changeFiles` in the legacy files module.  `found` is the glob
result as `(path, contents)` pairs.  The function returns the contents of
every matched change file, and — unconditionally, for every matched path,
regardless of `opts.remove` — issues an `fs.unlink` for that path; the
second component collects the unlink targets. -/
def changeFiles (opts : ChangeFilesOpts) (found : List (String × String)) :
    List String × List String :=
  (found.map Prod.snd, found.map Prod.fst)

end Legacy

/-- The `remove` argument run.js computes for `changeFiles`: deletion is
requested exactly for the `version` command. -/
def covectorChangeFilesRemoveArg (command : String) : Bool := command = "version"

/-- The set of change-file paths a covector run unlinks, with the legacy
`changeFiles` resolving the call: run.js passes
`remove: command === "version"`, the legacy module ignores it. -/
def covectorChangeFilesDeleted (command : String) (found : List (String × String)) :
    List String :=
  (Legacy.changeFiles { remove := covectorChangeFilesRemoveArg command } found).2

/-- One element of the `commands` list the publish loop of run.js iterates:
the fields the loop reads.  `pkg` is the package name, `pkgFileVersion`
models `pkg.pkgFile.version` (the package's target version), and an absent
or empty `getPublishedVersion` is falsy. -/
structure PkgCommand where
  pkg : String
  path : String := ""
  getPublishedVersion : Option String := none
  publish : String := ""
  pkgFileVersion : String := ""
  deriving Repr, DecidableEq

/-- Environment of one package during the publish loop: what its probe
command emits on stdout (as data chunks) and the exit status of its publish
command.  The loop waits for the publish "exit" event but never inspects
the status, so `publishExit` is deliberately unread by the model. -/
structure PkgEnv where
  probeChunks : List String := []
  publishExit : Int := 0
  deriving Repr, DecidableEq

/-- Truthiness of `!!pkg.getPublishedVersion`. -/
def probeTruthy (p : PkgCommand) : Bool :=
  match p.getPublishedVersion with
  | some c => c ≠ ""
  | none => false

/-- The probe-output accumulation loop of run.js: starting from the
accumulator, chunks are trimmed and appended until the accumulator is
neither empty nor the literal text `"undefined"`; if the chunk stream is
exhausted first the loop would block forever (`none`). -/
def assembleVersion : String → List String → Option String
  | acc, [] => if acc ≠ "" && acc ≠ "undefined" then some acc else none
  | acc, c :: rest =>
    if acc ≠ "" && acc ≠ "undefined" then some acc
    else assembleVersion (acc ++ jsTrim c) rest

/-- String coercion of a package-command object when used as a property
key: `published[pkg] = true` coerces the plain object `pkg` with
`Object.prototype.toString`, yielding `"[object Object]"` for every
package. -/
def jsObjectKeyString (p : PkgCommand) : String := "[object Object]"

/-- JS property assignment on the `published` accumulator object. -/
def jsSetKey (assoc : List (String × Bool)) (k : String) (b : Bool) : List (String × Bool) :=
  match assoc with
  | [] => [(k, b)]
  | (k', v) :: rest => if k' = k then (k', b) :: rest else (k', v) :: jsSetKey rest k b

/-- Property lookup on the `published` accumulator object. -/
def lookupKey (k : String) : List (String × Bool) → Option Bool
  | [] => none
  | (k', v) :: rest => if k' = k then some v else lookupKey k rest

/-- State accumulated by the publish loop: the `published` result object,
plus a trace of the zero-based positions of the packages whose publish
command was spawned (the loop's observable subprocess side effect). -/
structure PublishState where
  published : List (String × Bool) := []
  invoked : List Nat := []
  deriving Repr, DecidableEq

/-- The publish loop of run.js over the command list (element `i` of the
list carries its package's probe/publish environment): a truthy probe whose
assembled output equals the package's version logs and `continue`s —
nothing is recorded; otherwise the publish command is spawned, its exit
awaited (status unread), and `published["[object Object]"]` is set to
`true`.  A probe whose chunk stream never satisfies the accumulation loop
blocks the whole run (`none`). -/
def runPublishAux : Nat → PublishState → List (PkgCommand × PkgEnv) → Option PublishState
  | _, st, [] => some st
  | i, st, (p, e) :: rest =>
    if probeTruthy p then
      match assembleVersion "" e.probeChunks with
      | none => none
      | some version =>
        if p.pkgFileVersion = version then
          runPublishAux (i + 1) st rest
        else
          runPublishAux (i + 1)
            { published := jsSetKey st.published (jsObjectKeyString p) true,
              invoked := st.invoked ++ [i] } rest
    else
      runPublishAux (i + 1)
        { published := jsSetKey st.published (jsObjectKeyString p) true,
          invoked := st.invoked ++ [i] } rest

/-- The whole publish stage: the loop started on the empty `published`
object. -/
def runPublish (l : List (PkgCommand × PkgEnv)) : Option PublishState :=
  runPublishAux 0 ⟨[], []⟩ l

/-- The file extensions with a structured encoding. -/
def structuredExts : List String := [".toml", ".json", ".yml", ".yaml"]

/-- Claim C7 as stated: for a file of no structured encoding, loading fails
with the invalid-version error exactly when the trimmed body is not a valid
version (in the sense of the `semver` primitive the code consults), and a
successful load returns the trimmed body as the version. -/
def bareLoadClaim : Prop :=
  ∀ (tomlParse yamlParse : String → Except String JValue) (f : File),
    f.extname ∉ structuredExts →
    ((parsePkg tomlParse yamlParse f = .error (.error "not valid version")) ↔
      nodeSemverValid (jsTrim f.content) = false) ∧
    (∀ pm, parsePkg tomlParse yamlParse f = .ok pm → pm.version = jsTrim f.content)

/-- The probe guard taken by the skip branch of the publish loop: the probe
command is truthy and the accumulated probe output equals the package's
version. -/
def probeMatches (p : PkgCommand) (e : PkgEnv) : Prop :=
  probeTruthy p = true ∧ assembleVersion "" e.probeChunks = some p.pkgFileVersion

/-- "The returned result records an entry for this package": an entry under
the package's coerced object key or under its name. -/
def recordsEntryFor (published : List (String × Bool)) (p : PkgCommand) : Prop :=
  (∃ b, lookupKey (jsObjectKeyString p) published = some b) ∨
    (∃ b, lookupKey p.pkg published = some b)

/-- Claim C3 as stated: a package whose probe output equals its target
version is not published and is recorded in the returned result as skipped
(formalized generously as: the result carries any entry attributable to the
package). -/
def c3Claim : Prop :=
  ∀ (l : List (PkgCommand × PkgEnv)) (fin : PublishState) (i : Nat)
    (p : PkgCommand) (e : PkgEnv),
    runPublish l = some fin → l[i]? = some (p, e) → probeMatches p e →
    i ∉ fin.invoked ∧ recordsEntryFor fin.published p

/-- Claim C4 as stated: an invoked package is recorded as succeeded exactly
when its publish subprocess exited with status zero. -/
def c4Claim : Prop :=
  ∀ (l : List (PkgCommand × PkgEnv)) (fin : PublishState) (i : Nat)
    (p : PkgCommand) (e : PkgEnv),
    runPublish l = some fin → l[i]? = some (p, e) → i ∈ fin.invoked →
    ((lookupKey (jsObjectKeyString p) fin.published = some true) ↔ e.publishExit = 0)

/-- Claim C10 as stated: result keys are the object coercion, never any
package's name, and distinct published packages collapse onto one key. -/
def c10Claim : Prop :=
  ∀ (l : List (PkgCommand × PkgEnv)) (fin : PublishState), runPublish l = some fin →
    (∀ kv ∈ fin.published, kv.1 = "[object Object]") ∧
    (fin.invoked ≠ [] → ∀ pe ∈ l, lookupKey pe.1.pkg fin.published = none) ∧
    (∀ kv1 ∈ fin.published, ∀ kv2 ∈ fin.published, kv1.1 = kv2.1)

/-- Frame property of the version setter on the parsed document: every
top-level field other than the version-bearing one (and for TOML, every
field of the `package` table other than `version`) reads the same after the
set. -/
def versionFrame (ext : String) (doc doc2 : JValue) : Prop :=
  if ext = ".toml" then
    (∀ k, k ≠ "package" → jsGetField doc2 k = jsGetField doc k) ∧
    (∀ pt pt2, jsGetField doc "package" = some pt → jsGetField doc2 "package" = some pt2 →
      ∀ k, k ≠ "version" → jsGetField pt2 k = jsGetField pt k)
  else ∀ k, k ≠ "version" → jsGetField doc2 k = jsGetField doc k

/-- Bytes of the serialized JSON document strictly before the version
field's value, for a document whose fields are `pre`, then `version`, then
`post`. -/
def jsonVerPrefixChars (pre : List (String × JValue)) : List Char :=
  '\x7b' :: '\n' :: (joinBefore [',', '\n'] (serFields 1 pre) ++
    (indentChars 1 ++ (jsQuoteChars "version" ++ [':', ' ', '"'])))

/-- Bytes of the serialized JSON document strictly after the version
field's value (including the file's trailing newline). -/
def jsonVerSuffixChars (post : List (String × JValue)) : List Char :=
  '"' :: (joinAfter [',', '\n'] (serFields 1 post) ++ ['\n', '\x7d', '\n'])

/-- "Every non-version byte of the serialization is identical to the
original file": the original and the serialization share one common prefix
and one common suffix surrounding their respective version values. -/
def onlyVersionBytesDiffer (orig serial oldV newV : String) : Prop :=
  ∃ p s : List Char,
    orig.data = p ++ (escChars oldV ++ s) ∧ serial.data = p ++ (escChars newV ++ s)

/-- Claim C1's byte-identity part as stated: for every loaded JSON
manifest, serializing after a version set leaves every non-version byte
identical to the original file. -/
def c1ByteClaim : Prop :=
  ∀ (tomlStringify yamlStringify : JValue → String)
    (tomlParse yamlParse : String → Except String JValue)
    (f : File) (pm : PkgMinimum) (nickname v : String) (pkg2 : PackageFile)
    (doc2 : JValue) (out : String),
    f.extname = ".json" →
    parsePkg tomlParse yamlParse f = .ok pm →
    setPackageFileVersion (mkPackageFile f pm nickname) v = .ok pkg2 →
    pkg2.pkg = some doc2 →
    stringifyPkg tomlStringify yamlStringify doc2 f.extname = some out →
    onlyVersionBytesDiffer f.content out pm.version v

/-- Reparse hypothesis of the round-trip: for the structured encodings the
(external, for TOML/YAML) parser recovers the serialized document; the bare
encoding needs nothing. -/
def reparses (tomlParse yamlParse : String → Except String JValue) (ext out : String)
    (doc : JValue) : Prop :=
  if ext = ".toml" then tomlParse out = .ok doc ∧ out ≠ ""
  else if ext = ".json" then jsonParse out = some doc
  else if ext = ".yml" ∨ ext = ".yaml" then yamlParse out = .ok doc ∧ out ≠ ""
  else True

/-- Stand-in for the external TOML/YAML parser in concrete instantiations
that never reach it. -/
def unusedParse : String → Except String JValue := fun _ => .error "external collaborator"

/-- Stand-in for the external TOML/YAML writer in concrete instantiations
that never reach it. -/
def unusedStringify : JValue → String := fun _ => ""

/-- Sample parsed manifest document used by concrete instantiations. -/
def sampleDoc : JValue :=
  .obj [("name", .str "a"), ("version", .str "1.0.0"), ("scripts", .obj [("t", .str "x")])]

/-- The canonical serialization of `sampleDoc` as a loaded JSON manifest. -/
def sampleFile : File :=
  { content := jsonStringify sampleDoc ++ "\n", path := "package.json", extname := ".json" }

/-- The parse result of `sampleFile`. -/
def samplePm : PkgMinimum :=
  { version := "1.0.0", versionMajor := 1, versionMinor := 0, versionPatch := 0,
    versionPrerelease := none, deps := [], pkg := sampleDoc }

/-- A compactly formatted (non-pretty-printed) JSON manifest file. -/
def compactFile : File :=
  { content := "\x7b\"name\":\"a\",\"version\":\"1.0.0\",\"scripts\":\x7b\"t\":\"x\"\x7d\x7d",
    path := "package.json", extname := ".json" }

/-- A package command with a probe whose output will match its version. -/
def pkgWithProbe : PkgCommand :=
  { pkg := "pkg-a", path := "packages/a", getPublishedVersion := some "npm view pkg-a version",
    publish := "npm publish", pkgFileVersion := "1.0.0" }

/-- Probe environment emitting exactly the target version. -/
def envProbeMatch : PkgEnv := { probeChunks := ["1.0.0"], publishExit := 0 }

/-- A package command without a probe. -/
def pkgPlain : PkgCommand := { pkg := "pkg-b", publish := "cargo publish" }

/-- `sampleDoc` after the version is set to `2.0.0`. -/
def sampleDoc2 : JValue :=
  .obj [("name", .str "a"), ("version", .str "2.0.0"), ("scripts", .obj [("t", .str "x")])]

/-- The package file obtained by loading `sampleFile` and setting the
version to `2.0.0`. -/
def samplePkg2 : PackageFile :=
  { file := some sampleFile, name := "a", version := "1.0.0", versionMajor := 1,
    versionMinor := 0, versionPatch := 0, versionPrerelease := none, deps := [],
    pkg := some sampleDoc2 }

/-- Serialization of `sampleDoc2` as a JSON manifest. -/
def sampleOut : String := jsonStringify sampleDoc2 ++ "\n"

theorem string_data_inj {a b : String} (h : a.data = b.data) : a = b := by
  cases a
  cases b
  exact congrArg String.mk h

theorem string_append_data (a b : String) : (a ++ b).data = a.data ++ b.data := rfl

@[simp] theorem jsLookup_nil (k : String) : jsLookup k [] = none := rfl

theorem jsLookup_setField_self (fs : List (String × JValue)) (k : String) (v : JValue) :
    jsLookup k (setField fs k v) = some v := by
  induction fs with
  | nil => simp [setField, jsLookup]
  | cons hd tl ih =>
    obtain ⟨k', v'⟩ := hd
    by_cases h : k' = k
    · simp [setField, h, jsLookup]
    · simp [setField, h, jsLookup, ih]

theorem jsLookup_setField_other (fs : List (String × JValue)) (k k0 : String) (v : JValue)
    (hne : k ≠ k0) : jsLookup k (setField fs k0 v) = jsLookup k fs := by
  induction fs with
  | nil => simp [setField, jsLookup, Ne.symm hne]
  | cons hd tl ih =>
    obtain ⟨k', v'⟩ := hd
    by_cases h : k' = k0
    · subst h
      simp [setField, jsLookup, Ne.symm hne]
    · by_cases h2 : k' = k
      · subst h2
        simp [setField, jsLookup, hne]
      · simp [setField, h, jsLookup, h2, ih]

theorem setField_of_split (post : List (String × JValue)) (k : String) (old new : JValue) :
    ∀ pre : List (String × JValue), (∀ p ∈ pre, p.1 ≠ k) →
      setField (pre ++ (k, old) :: post) k new = pre ++ (k, new) :: post := by
  intro pre
  induction pre with
  | nil => intro _; simp [setField]
  | cons hd tl ih =>
    intro hpre
    obtain ⟨k', v'⟩ := hd
    have hk : k' ≠ k := hpre (k', v') (List.mem_cons_self _ _)
    have htl : ∀ p ∈ tl, p.1 ≠ k := fun p hp => hpre p (List.mem_cons_of_mem _ hp)
    show setField ((k', v') :: (tl ++ (k, old) :: post)) k new = _
    rw [setField.eq_def]
    simp only [if_neg hk, ih htl, List.cons_append]

theorem dropWhile_eq_self_of_not_head {p : Char → Bool} :
    ∀ l : List Char, (∀ c ∈ l, p c = false) → l.dropWhile p = l
  | [], _ => rfl
  | c :: rest, h => by
    simp [List.dropWhile, h c (by simp)]

theorem trimChars_eq_self (l : List Char) (h : ∀ c ∈ l, jsWhitespace c = false) :
    trimChars l = l := by
  unfold trimChars
  rw [dropWhile_eq_self_of_not_head l h,
      dropWhile_eq_self_of_not_head l.reverse (fun c hc => h c (List.mem_reverse.mp hc)),
      List.reverse_reverse]

theorem semverCore_all_chars {l : List Char} {i : SemVerInfo} (h : semverCore l = some i) :
    l.all semverChar = true := by
  by_contra hc
  rw [Bool.not_eq_true] at hc
  simp [semverCore, hc] at h

theorem semverChar_not_whitespace (c : Char) (h : semverChar c = true) :
    jsWhitespace c = false := by
  by_contra hw
  rw [Bool.not_eq_false] at hw
  simp only [jsWhitespace, Bool.or_eq_true, decide_eq_true_eq] at hw
  have hcase : c = ' ' ∨ c = '\t' ∨ c = '\n' ∨ c = '\r' ∨ c = '\x0b' ∨ c = '\x0c' := by
    tauto
  rcases hcase with h1 | h1 | h1 | h1 | h1 | h1 <;> subst h1 <;> exact absurd h (by decide)

theorem trimChars_of_semverCore {l : List Char} {i : SemVerInfo} (h : semverCore l = some i) :
    trimChars l = l := by
  refine trimChars_eq_self l (fun c hc => ?_)
  have hall := semverCore_all_chars h
  rw [List.all_eq_true] at hall
  exact semverChar_not_whitespace c (hall c hc)

theorem isValidSemver_trim {s : String} (h : isValidSemver s = true) : jsTrim s = s := by
  unfold isValidSemver at h
  rw [Option.isSome_iff_exists] at h
  obtain ⟨i, hi⟩ := h
  unfold jsTrim
  rw [trimChars_of_semverCore hi]

theorem isValidSemver_node {s : String} (h : isValidSemver s = true) :
    nodeSemverValid s = true ∧ semverFull s = semverCore s.data := by
  unfold isValidSemver at h
  rw [Option.isSome_iff_exists] at h
  obtain ⟨i, hi⟩ := h
  have ht : trimChars s.data = s.data := trimChars_of_semverCore hi
  constructor
  · simp [nodeSemverValid, semverFull, ht, hi]
  · simp [semverFull, ht, hi]

theorem isValidSemver_ne_empty {s : String} (h : isValidSemver s = true) : s ≠ "" := by
  intro he
  subst he
  exact absurd h (by decide)

theorem serFields_append (g : Nat) (a b : List (String × JValue)) :
    serFields g (a ++ b) = serFields g a ++ serFields g b := by
  induction a with
  | nil => simp [serFields]
  | cons hd tl ih =>
    obtain ⟨k, v⟩ := hd
    simp [serFields, ih]

theorem joinSep_split (sep : List Char) (m : List Char) :
    ∀ a b : List (List Char),
      joinSep sep (a ++ m :: b) = joinBefore sep a ++ (m ++ joinAfter sep b) := by
  intro a
  induction a with
  | nil =>
    intro b
    cases b with
    | nil => simp [joinSep, joinBefore, joinAfter]
    | cons y rest => simp [joinSep, joinBefore, joinAfter]
  | cons x tl ih =>
    intro b
    cases tl with
    | nil =>
      cases b with
      | nil => simp [joinSep, joinBefore, joinAfter]
      | cons y rest => simp [joinSep, joinBefore, joinAfter]
    | cons x2 tl2 =>
      have h2 := ih b
      simp only [List.cons_append] at h2 ⊢
      show x ++ sep ++ joinSep sep (x2 :: (tl2 ++ m :: b)) = _
      rw [h2]
      simp [joinBefore, joinSep, List.append_assoc]

theorem serVal_obj_of_ne_nil (g : Nat) (fields : List (String × JValue)) (h : fields ≠ []) :
    serVal g (.obj fields) = '\x7b' :: '\n' :: (joinSep [',', '\n'] (serFields (g + 1) fields) ++
      '\n' :: (indentChars g ++ ['\x7d'])) := by
  cases fields with
  | nil => exact absurd rfl h
  | cons y ys => rfl

theorem serObj_version_split (pre post : List (String × JValue)) (v : String) :
    serVal 0 (.obj (pre ++ ("version", .str v) :: post)) ++ ['\n']
      = jsonVerPrefixChars pre ++ (escChars v ++ jsonVerSuffixChars post) := by
  rw [serVal_obj_of_ne_nil 0 _ (by cases pre <;> simp)]
  have hf : serFields 1 (pre ++ ("version", .str v) :: post)
      = serFields 1 pre ++ (indentChars 1 ++ (jsQuoteChars "version" ++
        (':' :: ' ' :: serVal 1 (.str v)))) :: serFields 1 post := by
    rw [serFields_append]
    rfl
  rw [hf, joinSep_split]
  show _ = '\x7b' :: '\n' :: (joinBefore [',', '\n'] (serFields 1 pre) ++
    (indentChars 1 ++ (jsQuoteChars "version" ++ [':', ' ', '"'])) ++
    (escChars v ++ ('"' :: (joinAfter [',', '\n'] (serFields 1 post) ++ ['\n', '\x7d', '\n']))))
  simp [serVal, jsQuoteChars, indentChars, List.append_assoc]

theorem jsSetKey_all_eq (K : String) (b : Bool) :
    ∀ assoc : List (String × Bool), (∀ kv ∈ assoc, kv.1 = K) →
      ∀ kv ∈ jsSetKey assoc K b, kv.1 = K := by
  intro assoc
  induction assoc with
  | nil =>
    intro _ kv hkv
    simp only [jsSetKey, List.mem_singleton] at hkv
    subst hkv
    rfl
  | cons hd tl ih =>
    intro h kv hkv
    obtain ⟨k', v⟩ := hd
    have hk' : k' = K := h (k', v) (List.mem_cons_self _ _)
    subst hk'
    simp only [jsSetKey, if_pos rfl] at hkv
    rcases List.mem_cons.mp hkv with h1 | h1
    · subst h1
      rfl
    · exact h kv (List.mem_cons_of_mem _ h1)

theorem lookupKey_none_of_all (K k : String) (hne : k ≠ K) :
    ∀ assoc : List (String × Bool), (∀ kv ∈ assoc, kv.1 = K) → lookupKey k assoc = none := by
  intro assoc
  induction assoc with
  | nil => intro _; rfl
  | cons hd tl ih =>
    intro h
    obtain ⟨k', v⟩ := hd
    have hk' : k' = K := h (k', v) (List.mem_cons_self _ _)
    subst hk'
    simp only [lookupKey, if_neg (Ne.symm hne)]
    exact ih (fun kv hkv => h kv (List.mem_cons_of_mem _ hkv))

theorem lookupKey_jsSetKey_self (K : String) (b : Bool) :
    ∀ assoc : List (String × Bool), lookupKey K (jsSetKey assoc K b) = some b := by
  intro assoc
  induction assoc with
  | nil => simp [jsSetKey, lookupKey]
  | cons hd tl ih =>
    obtain ⟨k', v⟩ := hd
    by_cases h : k' = K
    · subst h
      simp [jsSetKey, lookupKey]
    · simp only [jsSetKey, if_neg h, lookupKey, if_neg h]
      exact ih

theorem runPublishAux_keys (l : List (PkgCommand × PkgEnv)) :
    ∀ (i : Nat) (st fin : PublishState),
      runPublishAux i st l = some fin →
      (∀ kv ∈ st.published, kv.1 = "[object Object]") →
      ∀ kv ∈ fin.published, kv.1 = "[object Object]" := by
  induction l with
  | nil =>
    intro i st fin h hst
    simp only [runPublishAux, Option.some.injEq] at h
    subst h
    exact hst
  | cons pe rest ih =>
    intro i st fin h hst
    obtain ⟨p, e⟩ := pe
    simp only [runPublishAux] at h
    cases hpt : probeTruthy p with
    | true =>
      rw [if_pos hpt] at h
      cases hasm : assembleVersion "" e.probeChunks with
      | none => simp [hasm] at h
      | some version =>
        simp only [hasm] at h
        by_cases hv : p.pkgFileVersion = version
        · rw [if_pos hv] at h
          exact ih (i + 1) st fin h hst
        · rw [if_neg hv] at h
          exact ih (i + 1) _ fin h (jsSetKey_all_eq _ _ _ hst)
    | false =>
      rw [if_neg (by simp [hpt])] at h
      exact ih (i + 1) _ fin h (jsSetKey_all_eq _ _ _ hst)

theorem runPublishAux_published_mono (l : List (PkgCommand × PkgEnv)) :
    ∀ (i : Nat) (st fin : PublishState),
      runPublishAux i st l = some fin →
      (lookupKey "[object Object]" st.published = some true →
        lookupKey "[object Object]" fin.published = some true) ∧
      (fin.invoked = st.invoked ∨
        lookupKey "[object Object]" fin.published = some true) := by
  induction l with
  | nil =>
    intro i st fin h
    simp only [runPublishAux, Option.some.injEq] at h
    subst h
    exact ⟨id, Or.inl rfl⟩
  | cons pe rest ih =>
    intro i st fin h
    obtain ⟨p, e⟩ := pe
    simp only [runPublishAux] at h
    have proceed : ∀ st' : PublishState,
        st'.published = jsSetKey st.published "[object Object]" true →
        runPublishAux (i + 1) st' rest = some fin →
        (lookupKey "[object Object]" st.published = some true →
          lookupKey "[object Object]" fin.published = some true) ∧
        (fin.invoked = st.invoked ∨
          lookupKey "[object Object]" fin.published = some true) := by
      intro st' hpub h'
      have hself : lookupKey "[object Object]" st'.published = some true := by
        rw [hpub]
        exact lookupKey_jsSetKey_self _ _ _
      have hfin := (ih (i + 1) st' fin h').1 hself
      exact ⟨fun _ => hfin, Or.inr hfin⟩
    cases hpt : probeTruthy p with
    | true =>
      rw [if_pos hpt] at h
      cases hasm : assembleVersion "" e.probeChunks with
      | none => simp [hasm] at h
      | some version =>
        simp only [hasm] at h
        by_cases hv : p.pkgFileVersion = version
        · rw [if_pos hv] at h
          exact ih (i + 1) st fin h
        · rw [if_neg hv] at h
          exact proceed _ rfl h
    | false =>
      rw [if_neg (by simp [hpt])] at h
      exact proceed _ rfl h

theorem runPublishAux_total (l : List (PkgCommand × PkgEnv)) :
    ∀ (i : Nat) (st : PublishState),
      (∀ pe ∈ l, probeTruthy pe.1 = true → (assembleVersion "" pe.2.probeChunks).isSome) →
      (runPublishAux i st l).isSome := by
  induction l with
  | nil =>
    intro i st _
    simp [runPublishAux]
  | cons pe rest ih =>
    intro i st hall
    obtain ⟨p, e⟩ := pe
    have htl : ∀ q ∈ rest, probeTruthy q.1 = true → (assembleVersion "" q.2.probeChunks).isSome :=
      fun q hq => hall q (List.mem_cons_of_mem _ hq)
    simp only [runPublishAux]
    cases hpt : probeTruthy p with
    | true =>
      rw [if_pos rfl]
      have hsome := hall (p, e) (List.mem_cons_self _ _) hpt
      cases hasm : assembleVersion "" e.probeChunks with
      | none => rw [hasm] at hsome; cases hsome
      | some version =>
        simp only [hasm]
        by_cases hv : p.pkgFileVersion = version
        · rw [if_pos hv]
          exact ih (i + 1) st htl
        · rw [if_neg hv]
          exact ih (i + 1) _ htl
    | false =>
      rw [if_neg (by decide)]
      exact ih (i + 1) _ htl

theorem runPublishAux_invoked_spec (l : List (PkgCommand × PkgEnv)) :
    ∀ (n : Nat) (st fin : PublishState),
      runPublishAux n st l = some fin →
      ∀ j ∈ fin.invoked, j ∈ st.invoked ∨
        (n ≤ j ∧ ∃ p e, l[j - n]? = some (p, e) ∧ ¬ probeMatches p e) := by
  induction l with
  | nil =>
    intro n st fin h j hj
    simp only [runPublishAux, Option.some.injEq] at h
    subst h
    exact Or.inl hj
  | cons pe rest ih =>
    intro n st fin h j hj
    obtain ⟨p, e⟩ := pe
    simp only [runPublishAux] at h
    have shift : (n + 1 ≤ j ∧ ∃ p' e', rest[j - (n + 1)]? = some (p', e') ∧ ¬ probeMatches p' e') →
        n ≤ j ∧ ∃ p' e', ((p, e) :: rest)[j - n]? = some (p', e') ∧ ¬ probeMatches p' e' := by
      rintro ⟨hle, p', e', hget, hnm⟩
      refine ⟨Nat.le_of_succ_le hle, p', e', ?_, hnm⟩
      have hidx : j - n = (j - (n + 1)) + 1 := by omega
      rw [hidx, List.getElem?_cons_succ]
      exact hget
    have proceed : ∀ st' : PublishState,
        st'.invoked = st.invoked ++ [n] → ¬ probeMatches p e →
        runPublishAux (n + 1) st' rest = some fin →
        j ∈ st.invoked ∨
          (n ≤ j ∧ ∃ p' e', ((p, e) :: rest)[j - n]? = some (p', e') ∧ ¬ probeMatches p' e') := by
      intro st' hinv hnm h'
      rcases ih (n + 1) st' fin h' j hj with hmem | hrest
      · rw [hinv] at hmem
        rcases List.mem_append.mp hmem with hmem | hmem
        · exact Or.inl hmem
        · right
          have hjn : j = n := List.mem_singleton.mp hmem
          subst hjn
          refine ⟨Nat.le_refl _, p, e, ?_, hnm⟩
          simp
      · exact Or.inr (shift hrest)
    cases hpt : probeTruthy p with
    | true =>
      rw [if_pos hpt] at h
      cases hasm : assembleVersion "" e.probeChunks with
      | none => simp [hasm] at h
      | some version =>
        simp only [hasm] at h
        by_cases hv : p.pkgFileVersion = version
        · rw [if_pos hv] at h
          rcases ih (n + 1) st fin h j hj with hmem | hrest
          · exact Or.inl hmem
          · exact Or.inr (shift hrest)
        · rw [if_neg hv] at h
          refine proceed _ rfl ?_ h
          rintro ⟨_, ha⟩
          rw [hasm] at ha
          exact hv (Option.some.inj ha).symm
    | false =>
      rw [if_neg (by simp [hpt])] at h
      refine proceed _ rfl ?_ h
      rintro ⟨ht, _⟩
      rw [hpt] at ht
      cases ht

/-- C9: in the legacy files module, serializing any package file with
extension `.toml` always throws — the `.toml` branch of `stringifyPkg`
references the unbound variable `file`, raising a `ReferenceError`, so
`writePkgFile` can never successfully write a TOML manifest. -/
theorem c9_legacy_toml_stringify_always_throws :
    (∀ doc : JValue,
      Legacy.stringifyPkg doc ".toml" = .error (.referenceError "file is not defined")) ∧
    (∀ pf : Legacy.PackageFile, pf.vfile.extname = ".toml" →
      Legacy.writePkgFile pf = .error (.referenceError "file is not defined")) := by
  constructor
  · intro doc
    rfl
  · intro pf h
    simp [Legacy.writePkgFile, Legacy.stringifyPkg, h]

theorem c9_witness :
    Legacy.writePkgFile
      { vfile := { contents := "[package]\nname = \"t\"\nversion = \"0.1.0\"",
                   extname := ".toml", path := "Cargo.toml" },
        pkg := .obj [("package", .obj [("name", .str "t"), ("version", .str "0.1.0")])] }
      = .error (.referenceError "file is not defined") :=
  c9_legacy_toml_stringify_always_throws.2 _ rfl

/-- C8: change-record files are deleted by the files collaborator run.js
invokes even on a read-only `status` run — run.js requests removal only for
the `version` command, but the legacy `changeFiles` ignores the `remove`
member and unlinks every globbed change file unconditionally, so a
`status` run does not leave the change files on disk. -/
theorem c8_status_run_still_deletes_change_files :
    covectorChangeFilesRemoveArg "status" = false ∧
    covectorChangeFilesDeleted "status"
        [(".changes/first-change.md", "---\n\"pkg-a\": patch\n---\n\nA change.\n")]
      = [".changes/first-change.md"] ∧
    (∀ (command : String) (found : List (String × String)),
      (Legacy.changeFiles { remove := covectorChangeFilesRemoveArg command } found).2
        = found.map Prod.fst) := by
  refine ⟨rfl, rfl, ?_⟩
  intro command found
  rfl

/-- C10 as stated is falsified by a run whose single package is literally
named `[object Object]`: its publish executes and the result then does
contain an entry under that package's name. -/
theorem c10_counterexample : ¬ c10Claim := by
  intro h
  have h2 := h [({ pkg := "[object Object]", publish := "npm publish" }, {})]
    ⟨[("[object Object]", true)], [0]⟩ rfl
  have h3 := h2.2.1 (by decide) ({ pkg := "[object Object]", publish := "npm publish" }, {})
    (List.mem_singleton_self _)
  exact absurd h3 (by decide)

/-- C10 amended: the publish result is keyed by the string coercion
`"[object Object]"` of the package-command object, so (a) every key of the
returned object is `"[object Object]"`, (b) once any publish executed there
is no entry under any package's name except a package literally named
`"[object Object]"`, and (c) all entries collapse onto a single key. -/
theorem c10_published_keys_collapse :
    ∀ (l : List (PkgCommand × PkgEnv)) (fin : PublishState), runPublish l = some fin →
      (∀ kv ∈ fin.published, kv.1 = "[object Object]") ∧
      (fin.invoked ≠ [] → ∀ pe ∈ l, pe.1.pkg ≠ "[object Object]" →
        lookupKey pe.1.pkg fin.published = none) ∧
      (∀ kv1 ∈ fin.published, ∀ kv2 ∈ fin.published, kv1.1 = kv2.1) := by
  intro l fin h
  have hkeys := runPublishAux_keys l 0 ⟨[], []⟩ fin h (by intro kv hkv; cases hkv)
  refine ⟨hkeys, ?_, ?_⟩
  · intro _ pe _ hne
    exact lookupKey_none_of_all _ _ hne fin.published hkeys
  · intro kv1 h1 kv2 h2
    rw [hkeys kv1 h1, hkeys kv2 h2]

theorem c10_witness :
    lookupKey "pkg-b"
      (PublishState.mk [("[object Object]", true)] [0]).published = none :=
  (c10_published_keys_collapse [(pkgPlain, {})] ⟨[("[object Object]", true)], [0]⟩ rfl).2.1
    (by decide) (pkgPlain, {}) (List.mem_singleton_self _) (by decide)

/-- C4 as stated is falsified by a publish whose subprocess exits with
status 1: the loop waits for the exit event but never reads the status, so
the package is still recorded as `true`. -/
theorem c4_counterexample : ¬ c4Claim := by
  intro h
  have h2 := h [(pkgPlain, { publishExit := 1 })] ⟨[("[object Object]", true)], [0]⟩ 0
    pkgPlain { publishExit := 1 } rfl rfl (by decide)
  have h3 := h2.mp (by decide)
  exact absurd h3 (by decide)

/-- C4 amended: the publish loop records `published["[object Object]"] =
true` for an invoked package regardless of the publish subprocess's exit
status — no failure is detected or reported — and one package's publish
never aborts the processing of the remaining packages (the loop always
completes when every probe's output stream satisfies the accumulation
loop). -/
theorem c4_publish_records_true_regardless_of_exit :
    (∀ (l : List (PkgCommand × PkgEnv)) (fin : PublishState), runPublish l = some fin →
      fin.invoked ≠ [] → lookupKey "[object Object]" fin.published = some true) ∧
    (∀ l : List (PkgCommand × PkgEnv),
      (∀ pe ∈ l, probeTruthy pe.1 = true → (assembleVersion "" pe.2.probeChunks).isSome) →
      (runPublish l).isSome) := by
  constructor
  · intro l fin h hinv
    rcases (runPublishAux_published_mono l 0 ⟨[], []⟩ fin h).2 with heq | htrue
    · exact absurd heq hinv
    · exact htrue
  · intro l hall
    exact runPublishAux_total l 0 ⟨[], []⟩ hall

theorem c4_witness :
    lookupKey "[object Object]"
      (PublishState.mk [("[object Object]", true)] [0]).published = some true ∧
    (runPublish [(pkgPlain, { publishExit := 1 })]).isSome := by
  constructor
  · exact c4_publish_records_true_regardless_of_exit.1 [(pkgPlain, { publishExit := 1 })]
      ⟨[("[object Object]", true)], [0]⟩ rfl (by decide)
  · refine c4_publish_records_true_regardless_of_exit.2 [(pkgPlain, { publishExit := 1 })] ?_
    intro pe hpe ht
    rw [List.mem_singleton] at hpe
    subst hpe
    exact absurd ht (by decide)

/-- C3 as stated is falsified by a run whose single package's probe matches
its version: the publish command is indeed not invoked, but the returned
result records nothing at all for the package (the skip is only logged to
the console), so it is not recorded as skippedAsAlreadyPublished. -/
theorem c3_counterexample : ¬ c3Claim := by
  intro h
  have h2 := h [(pkgWithProbe, envProbeMatch)] ⟨[], []⟩ 0 pkgWithProbe envProbeMatch
    rfl rfl ⟨rfl, rfl⟩
  rcases h2.2 with ⟨b, hb⟩ | ⟨b, hb⟩ <;> exact absurd hb (by simp [lookupKey])

/-- C3 amended: a package whose probe output equals its target version is
skipped — its processing leaves the loop state completely unchanged (its
publish command is not spawned and nothing is added to the returned
result); in particular its position never appears in the invocation
trace. -/
theorem c3_probe_match_skips_without_recording :
    (∀ (i : Nat) (st : PublishState) (p : PkgCommand) (e : PkgEnv)
      (rest : List (PkgCommand × PkgEnv)), probeMatches p e →
      runPublishAux i st ((p, e) :: rest) = runPublishAux (i + 1) st rest) ∧
    (∀ (l : List (PkgCommand × PkgEnv)) (fin : PublishState) (i : Nat)
      (p : PkgCommand) (e : PkgEnv),
      runPublish l = some fin → l[i]? = some (p, e) → probeMatches p e →
      i ∉ fin.invoked) := by
  constructor
  · rintro i st p e rest ⟨ht, ha⟩
    simp only [runPublishAux]
    rw [if_pos ht]
    simp [ha]
  · rintro l fin i p e h hget hm
    intro habs
    rcases runPublishAux_invoked_spec l 0 ⟨[], []⟩ fin h i habs with hmem | ⟨_, p', e', hget', hnm⟩
    · cases hmem
    · rw [Nat.sub_zero] at hget'
      rw [hget] at hget'
      obtain ⟨hp, he⟩ := Prod.mk.injEq .. ▸ Option.some.inj hget'
      subst hp
      subst he
      exact hnm hm

theorem c3_witness :
    runPublishAux 0 ⟨[], []⟩ [(pkgWithProbe, envProbeMatch)] = runPublishAux 1 ⟨[], []⟩ [] ∧
    (0 : Nat) ∉ (PublishState.mk [] []).invoked := by
  constructor
  · exact c3_probe_match_skips_without_recording.1 0 ⟨[], []⟩ pkgWithProbe envProbeMatch []
      ⟨rfl, rfl⟩
  · exact c3_probe_match_skips_without_recording.2 [(pkgWithProbe, envProbeMatch)] ⟨[], []⟩ 0
      pkgWithProbe envProbeMatch rfl rfl ⟨rfl, rfl⟩

/-- C6: for each recognized dependency kind, asking the adapter for a
dependency's version when that dependency's entry is an object without a
`version` subfield throws the missing-dependency-version error rather than
silently skipping, and the error message names both the package and the
dependency. -/
theorem c6_missing_dep_version_throws (pkg : PackageFile) (f : File) (doc : JValue)
    (property dep : String) (depsFields entryFields : List (String × JValue))
    (hf : pkg.file = some f) (hd : pkg.pkg = some doc)
    (hprop : property = "dependencies" ∨ property = "devDependencies" ∨
      property = "dev-dependencies")
    (hdep : dep ≠ "")
    (hmap : jsGetField doc property = some (.obj depsFields))
    (hentry : jsLookup dep depsFields = some (.obj entryFields))
    (hnover : jsLookup "version" entryFields = none) :
    getPackageFileVersion pkg property dep
      = .error (.error (missingDepMsg pkg.name
          (if property = "dependencies" then "dependency" else "devDependency") dep)) ∧
    (∃ a b : String, missingDepMsg pkg.name
        (if property = "dependencies" then "dependency" else "devDependency") dep
      = a ++ (pkg.name ++ b)) ∧
    (∃ a b : String, missingDepMsg pkg.name
        (if property = "dependencies" then "dependency" else "devDependency") dep
      = a ++ (dep ++ b)) := by
  have hdocshape : ∃ fs0, doc = .obj fs0 := by
    cases doc <;> simp [jsGetField] at hmap ⊢
  obtain ⟨fs0, rfl⟩ := hdocshape
  have hmap' : jsLookup property fs0 = some (.obj depsFields) := hmap
  refine ⟨?_, ?_, ?_⟩
  · rcases hprop with hp | hp | hp <;> subst hp <;>
      simp [getPackageFileVersion, hf, hd, JValue.truthy, getDepVersionFrom, hmap', optTruthy,
        jsGetField, hentry, hnover, JValue.typeofStr, hdep]
  · refine ⟨"", " has a " ++
      ((if property = "dependencies" then "dependency" else "devDependency") ++
        (" on " ++ (dep ++ (", and " ++ (dep ++
          (" does not have a version number. This cannot be published. " ++
            "Please pin it to a MAJOR.MINOR.PATCH reference.")))))), ?_⟩
    apply string_data_inj
    simp [missingDepMsg, string_append_data, List.append_assoc]
  · refine ⟨pkg.name ++ (" has a " ++
      ((if property = "dependencies" then "dependency" else "devDependency") ++ " on ")),
      ", and " ++ (dep ++ (" does not have a version number. This cannot be published. " ++
        "Please pin it to a MAJOR.MINOR.PATCH reference.")), ?_⟩
    apply string_data_inj
    simp [missingDepMsg, string_append_data, List.append_assoc]

theorem c6_witness :
    getPackageFileVersion
      { file := some { content := "x", extname := ".json" }, name := "app",
        pkg := some (.obj [("name", .str "a"), ("version", .str "1.0.0"),
          ("dependencies", .obj [("tauri", .obj [("features", .arr [])])])]) }
      "dependencies" "tauri"
      = .error (.error (missingDepMsg "app" "dependency" "tauri")) := by
  have h := c6_missing_dep_version_throws
    { file := some { content := "x", extname := ".json" }, name := "app",
      pkg := some (.obj [("name", .str "a"), ("version", .str "1.0.0"),
        ("dependencies", .obj [("tauri", .obj [("features", .arr [])])])]) }
    { content := "x", extname := ".json" }
    (.obj [("name", .str "a"), ("version", .str "1.0.0"),
      ("dependencies", .obj [("tauri", .obj [("features", .arr [])])])])
    "dependencies" "tauri"
    [("tauri", .obj [("features", .arr [])])] [("features", .arr [])]
    rfl rfl (Or.inl rfl) (by decide) rfl rfl rfl
  exact h.1

/-- C7 as stated is falsified by a bare version file with empty content:
its trimmed body is not a valid version, yet loading fails with the
missing-content error, not the invalid-version error. -/
theorem c7_counterexample : ¬ bareLoadClaim := by
  intro h
  obtain ⟨hiff, _⟩ := h unusedParse unusedParse ⟨"", "VERSION", "", ""⟩ (by decide)
  have h4 := hiff.mpr (by decide)
  have h5 : parsePkg unusedParse unusedParse ⟨"", "VERSION", "", ""⟩
      = .error (.error "VERSION does not have any content") := rfl
  rw [h5] at h4
  injection h4 with h6
  injection h6 with h7
  exact absurd h7 (by decide)

/-- C7 amended: for a file of no structured encoding whose body is
non-empty, loading treats the trimmed body as the version — it fails with
the invalid-version error exactly when the trimmed body is not a valid
version (in the sense of the `semver` primitive), and otherwise succeeds
returning the trimmed body as the version.  (An empty body instead fails
earlier with a missing-content error.) -/
theorem c7_bare_version_load (tomlParse yamlParse : String → Except String JValue) (f : File)
    (hext : f.extname ∉ structuredExts) (hc : f.content ≠ "") :
    ((parsePkg tomlParse yamlParse f = .error (.error "not valid version")) ↔
      nodeSemverValid (jsTrim f.content) = false) ∧
    (∀ pm, parsePkg tomlParse yamlParse f = .ok pm → pm.version = jsTrim f.content) ∧
    (nodeSemverValid (jsTrim f.content) = true →
      ∃ pm, parsePkg tomlParse yamlParse f = .ok pm ∧ pm.version = jsTrim f.content) := by
  have h1 : f.extname ≠ ".toml" := fun he => hext (by rw [he]; decide)
  have h2 : f.extname ≠ ".json" := fun he => hext (by rw [he]; decide)
  have h3 : f.extname ≠ ".yml" := fun he => hext (by rw [he]; decide)
  have h4 : f.extname ≠ ".yaml" := fun he => hext (by rw [he]; decide)
  have h5 : ¬(f.extname = ".yml" ∨ f.extname = ".yaml") := by
    rintro (he | he)
    · exact h3 he
    · exact h4 he
  unfold parsePkg
  rw [if_neg hc, if_neg h1, if_neg h2, if_neg h5]
  unfold nodeSemverValid
  cases hsv : semverFull (jsTrim f.content) with
  | none =>
    refine ⟨?_, ?_, ?_⟩
    · simp [hsv]
    · intro pm hpm
      simp [hsv] at hpm
    · intro habs
      simp at habs
  | some info =>
    refine ⟨?_, ?_, ?_⟩
    · simp [hsv]
    · intro pm hpm
      simp only [hsv, Except.ok.injEq] at hpm
      rw [← hpm]
    · intro _
      refine ⟨PkgMinimum.mk (jsTrim f.content) info.major info.minor info.patch none []
        (.obj [("name", .str ""), ("version", .str (jsTrim f.content))]), ?_, rfl⟩
      simp [hsv]

theorem c7_witness :
    ∃ pm, parsePkg unusedParse unusedParse ⟨"  v6.1.0-beta.2\n", "VERSION", "", ""⟩ = .ok pm ∧
      pm.version = jsTrim "  v6.1.0-beta.2\n" :=
  (c7_bare_version_load unusedParse unusedParse ⟨"  v6.1.0-beta.2\n", "VERSION", "", ""⟩
    (by decide) (by decide)).2.2 (by decide)

theorem keyDeps_congr {d1 d2 : JValue}
    (h1 : jsGetField d1 "dependencies" = jsGetField d2 "dependencies")
    (h2 : jsGetField d1 "devDependencies" = jsGetField d2 "devDependencies")
    (h3 : jsGetField d1 "dev-dependencies" = jsGetField d2 "dev-dependencies") :
    keyDeps d1 = keyDeps d2 := by
  simp only [keyDeps, List.foldlM, keyDepsOne, h1, h2, h3]

theorem finishStructured_inv {wp : Bool} {doc : JValue} {verOpt : Option JValue}
    {pm : PkgMinimum} (h : finishStructured wp doc verOpt = .ok pm) :
    pm.pkg = doc ∧ keyDeps doc = .ok pm.deps ∧ verOpt = some (.str pm.version) ∧
      ∃ info, semverFull pm.version = some info := by
  unfold finishStructured at h
  cases verOpt with
  | none => exact Except.noConfusion h
  | some vv =>
    cases vv with
    | str s =>
      cases hsv : semverFull s with
      | none =>
        simp only [hsv] at h
        exact Except.noConfusion h
      | some info =>
        simp only [hsv] at h
        cases hkd : keyDeps doc with
        | error e =>
          simp only [hkd] at h
          exact Except.noConfusion h
        | ok deps =>
          simp only [hkd] at h
          have hrec := Except.ok.inj h
          subst hrec
          exact ⟨rfl, rfl, rfl, info, hsv⟩
    | null => exact Except.noConfusion h
    | bool b => exact Except.noConfusion h
    | num n => exact Except.noConfusion h
    | arr a => exact Except.noConfusion h
    | obj fs => exact Except.noConfusion h

theorem jsReadProp_ok_some {base : JValue} {k : String} {v : JValue}
    (h : jsReadProp base k = .ok (some v)) :
    ∃ fs, base = .obj fs ∧ jsLookup k fs = some v := by
  cases base with
  | obj fs =>
    refine ⟨fs, rfl, ?_⟩
    simpa [jsReadProp] using h
  | null => exact Except.noConfusion h
  | bool b => simp [jsReadProp] at h
  | num n => simp [jsReadProp] at h
  | str s => simp [jsReadProp] at h
  | arr a => simp [jsReadProp] at h

theorem parsePkg_inv_core {tp yp : String → Except String JValue} {f : File}
    {pm : PkgMinimum} (h : parsePkg tp yp f = .ok pm) :
    (∃ fs, pm.pkg = .obj fs) ∧ keyDeps pm.pkg = .ok pm.deps ∧
      (f.extname = ".yml" ∨ f.extname = ".yaml" →
        optTruthy (jsGetField pm.pkg "name") = true) := by
  unfold parsePkg at h
  by_cases hc : f.content = ""
  · rw [if_pos hc] at h
    exact Except.noConfusion h
  rw [if_neg hc] at h
  by_cases h1 : f.extname = ".toml"
  · rw [if_pos h1] at h
    cases htp : tp f.content with
    | error e =>
      simp only [htp] at h
      exact Except.noConfusion h
    | ok parsedTOML =>
      simp only [htp] at h
      cases hrp : jsReadProp parsedTOML "package" with
      | error e =>
        simp only [hrp] at h
        exact Except.noConfusion h
      | ok vo =>
        simp only [hrp] at h
        cases vo with
        | none => exact Except.noConfusion h
        | some pkgTable =>
          cases hrp2 : jsReadProp pkgTable "version" with
          | error e =>
            simp only [hrp2] at h
            exact Except.noConfusion h
          | ok verOpt =>
            simp only [hrp2] at h
            obtain ⟨hpkg, hkd, -, -⟩ := finishStructured_inv h
            obtain ⟨fs, hfs, -⟩ := jsReadProp_ok_some hrp
            refine ⟨⟨fs, by rw [hpkg, hfs]⟩, by rw [hpkg]; exact hkd, ?_⟩
            rintro (he | he) <;> rw [he] at h1 <;> exact absurd h1 (by decide)
  rw [if_neg h1] at h
  by_cases h2 : f.extname = ".json"
  · rw [if_pos h2] at h
    cases hjp : jsonParse f.content with
    | none =>
      simp only [hjp] at h
      exact Except.noConfusion h
    | some parsedJSON =>
      simp only [hjp] at h
      cases hrp : jsReadProp parsedJSON "version" with
      | error e =>
        simp only [hrp] at h
        exact Except.noConfusion h
      | ok verOpt =>
        simp only [hrp] at h
        obtain ⟨hpkg, hkd, hvo, -⟩ := finishStructured_inv h
        subst hvo
        obtain ⟨fs, hfs, -⟩ := jsReadProp_ok_some hrp
        refine ⟨⟨fs, by rw [hpkg, hfs]⟩, by rw [hpkg]; exact hkd, ?_⟩
        rintro (he | he) <;> rw [he] at h2 <;> exact absurd h2 (by decide)
  rw [if_neg h2] at h
  by_cases h3 : f.extname = ".yml" ∨ f.extname = ".yaml"
  · rw [if_pos h3] at h
    cases hyp : yp f.content with
    | error e =>
      simp only [hyp] at h
      exact Except.noConfusion h
    | ok parsedYAML =>
      simp only [hyp] at h
      cases parsedYAML with
      | str s => exact Except.noConfusion h
      | num n => exact Except.noConfusion h
      | null => exact Except.noConfusion h
      | bool b =>
        by_cases hcond : (!(optTruthy (jsGetField (JValue.bool b) "name")) ||
            !(optTruthy (jsGetField (JValue.bool b) "version"))) = true
        · rw [if_pos hcond] at h
          exact Except.noConfusion h
        · simp [optTruthy, jsGetField] at hcond
      | arr items =>
        by_cases hcond : (!(optTruthy (jsGetField (JValue.arr items) "name")) ||
            !(optTruthy (jsGetField (JValue.arr items) "version"))) = true
        · rw [if_pos hcond] at h
          exact Except.noConfusion h
        · simp [optTruthy, jsGetField] at hcond
      | obj fs =>
        by_cases hcond : (!(optTruthy (jsGetField (JValue.obj fs) "name")) ||
            !(optTruthy (jsGetField (JValue.obj fs) "version"))) = true
        · rw [if_pos hcond] at h
          exact Except.noConfusion h
        · rw [if_neg hcond] at h
          obtain ⟨hpkg, hkd, -, -⟩ := finishStructured_inv h
          rw [Bool.or_eq_true, not_or] at hcond
          obtain ⟨hname, -⟩ := hcond
          have hname2 : optTruthy (jsGetField (JValue.obj fs) "name") = true := by
            simpa using hname
          exact ⟨⟨fs, hpkg⟩, by rw [hpkg]; exact hkd, fun _ => by rw [hpkg]; exact hname2⟩
  · rw [if_neg h3] at h
    cases hsv : semverFull (jsTrim f.content) with
    | none =>
      simp only [hsv] at h
      exact Except.noConfusion h
    | some info =>
      simp only [hsv] at h
      have hrec := Except.ok.inj h
      subst hrec
      refine ⟨⟨_, rfl⟩, rfl, ?_⟩
      intro hy
      exact absurd hy h3

theorem setVersion_inv {f : File} {pm : PkgMinimum} {nickname v : String}
    {pkg2 : PackageFile} {fs : List (String × JValue)}
    (hset : setPackageFileVersion (mkPackageFile f pm nickname) v = .ok pkg2)
    (hfs : pm.pkg = .obj fs) :
    ∃ doc2, pkg2.pkg = some doc2 ∧ setVersionInDoc f.extname (.obj fs) v = .ok doc2 := by
  have hset2 : (match setVersionInDoc f.extname (.obj fs) v with
      | .ok doc' => Except.ok { mkPackageFile f pm nickname with pkg := some doc' }
      | .error e => (.error e : Except JsErr PackageFile)) = .ok pkg2 := by
    rw [← hset]
    show _ = setPackageFileVersion (mkPackageFile f pm nickname) v
    unfold setPackageFileVersion mkPackageFile
    rw [hfs]
    rfl
  cases hsvd : setVersionInDoc f.extname (.obj fs) v with
  | error e =>
    simp only [hsvd] at hset2
    exact Except.noConfusion hset2
  | ok doc2 =>
    simp only [hsvd] at hset2
    have := Except.ok.inj hset2
    exact ⟨doc2, by rw [← this], rfl⟩

theorem setVersionInDoc_json_inv {ext : String} {fs : List (String × JValue)} {v : String}
    {doc2 : JValue} (hnt : ext ≠ ".toml")
    (h : setVersionInDoc ext (.obj fs) v = .ok doc2) :
    doc2 = .obj (setField fs "version" (.str v)) := by
  unfold setVersionInDoc at h
  by_cases hj : ext = ".json"
  · rw [if_pos hj] at h
    simp only [jsSetProp] at h
    exact (Except.ok.inj h).symm
  · rw [if_neg hj, if_neg hnt] at h
    simp only [jsSetProp] at h
    exact (Except.ok.inj h).symm

theorem except_bind_ok {ε α β : Type} (a : α) (f : α → Except ε β) :
    (do let x ← Except.ok a; f x) = f a := rfl

theorem except_bind_error {ε α β : Type} (e : ε) (f : α → Except ε β) :
    (do let x ← (Except.error e : Except ε α); f x) = Except.error e := rfl

theorem setVersionInDoc_toml_inv {fs : List (String × JValue)} {v : String} {doc2 : JValue}
    (h : setVersionInDoc ".toml" (.obj fs) v = .ok doc2) :
    ∃ ptfs, jsLookup "package" fs = some (.obj ptfs) ∧
      doc2 = .obj (setField fs "package" (.obj (setField ptfs "version" (.str v)))) := by
  unfold setVersionInDoc at h
  rw [if_neg (by decide), if_pos rfl] at h
  cases hpkg : jsGetField (JValue.obj fs) "package" with
  | none =>
    simp only [hpkg] at h
    exact Except.noConfusion h
  | some pt =>
    simp only [hpkg] at h
    cases pt with
    | obj ptfs =>
      refine ⟨ptfs, hpkg, ?_⟩
      simp only [jsSetProp, except_bind_ok] at h
      exact (Except.ok.inj h).symm
    | null =>
      simp only [jsSetProp, except_bind_error] at h
      exact Except.noConfusion h
    | bool b =>
      simp only [jsSetProp, except_bind_error] at h
      exact Except.noConfusion h
    | num n =>
      simp only [jsSetProp, except_bind_error] at h
      exact Except.noConfusion h
    | str s =>
      simp only [jsSetProp, except_bind_error] at h
      exact Except.noConfusion h
    | arr a =>
      simp only [jsSetProp, except_bind_error] at h
      exact Except.noConfusion h

theorem parsePkg_toml_forward {tp yp : String → Except String JValue} {g : File}
    {doc2 : JValue} {v : String} {fs2 ptfs2 : List (String × JValue)}
    (hext : g.extname = ".toml") (hc : g.content ≠ "")
    (htp : tp g.content = .ok doc2)
    (hdoc2 : doc2 = .obj fs2) (hpkg : jsLookup "package" fs2 = some (.obj ptfs2))
    (hver : jsLookup "version" ptfs2 = some (.str v)) :
    parsePkg tp yp g = finishStructured true doc2 (some (.str v)) := by
  unfold parsePkg
  rw [if_neg hc, if_pos hext, htp]
  simp only [hdoc2, jsReadProp, hpkg, hver]

theorem parsePkg_json_forward {tp yp : String → Except String JValue} {g : File}
    {doc2 : JValue} {v : String} {fs2 : List (String × JValue)}
    (hext : g.extname = ".json") (hc : g.content ≠ "")
    (hjp : jsonParse g.content = some doc2)
    (hdoc2 : doc2 = .obj fs2) (hver : jsLookup "version" fs2 = some (.str v)) :
    parsePkg tp yp g = finishStructured true doc2 (some (.str v)) := by
  unfold parsePkg
  rw [hext, if_neg hc, if_neg (by decide), if_pos rfl, hjp]
  simp only [hdoc2, jsReadProp, hver]

theorem parsePkg_yaml_forward {tp yp : String → Except String JValue} {g : File}
    {doc2 : JValue} {v : String} {fs2 : List (String × JValue)}
    (hext : g.extname = ".yml" ∨ g.extname = ".yaml") (hc : g.content ≠ "")
    (hyp : yp g.content = .ok doc2)
    (hdoc2 : doc2 = .obj fs2) (hnamet : optTruthy (jsLookup "name" fs2) = true)
    (hver : jsLookup "version" fs2 = some (.str v)) (hvt : v ≠ "") :
    parsePkg tp yp g = finishStructured false doc2 (some (.str v)) := by
  have hnt : g.extname ≠ ".toml" := by
    rcases hext with h | h <;> rw [h] <;> decide
  have hnj : g.extname ≠ ".json" := by
    rcases hext with h | h <;> rw [h] <;> decide
  unfold parsePkg
  rw [if_neg hc, if_neg hnt, if_neg hnj, if_pos hext, hyp]
  simp only [hdoc2, jsGetField]
  rw [hnamet, hver]
  have hvt2 : optTruthy (some (JValue.str v)) = true := by
    simp [optTruthy, JValue.truthy, hvt]
  rw [hvt2, if_neg (by decide)]

theorem parsePkg_bare_forward {tp yp : String → Except String JValue} {g : File}
    {info : SemVerInfo}
    (h1 : g.extname ≠ ".toml") (h2 : g.extname ≠ ".json")
    (h3 : ¬(g.extname = ".yml" ∨ g.extname = ".yaml")) (hc : g.content ≠ "")
    (hsv : semverFull (jsTrim g.content) = some info) :
    parsePkg tp yp g = .ok (PkgMinimum.mk (jsTrim g.content) info.major info.minor
      info.patch none []
      (.obj [("name", .str ""), ("version", .str (jsTrim g.content))])) := by
  unfold parsePkg
  rw [if_neg hc, if_neg h1, if_neg h2, if_neg h3]
  simp only [hsv]

/-- C2: for every loaded manifest and every valid semantic version `v`,
setting the version to `v`, serializing, re-parsing the serialized content
(where, for the structured encodings, the parse primitive recovers the
serialized document — stated pointwise) and reading the version back
yields exactly `v`, across all four encodings. -/
theorem c2_set_serialize_reparse_roundtrip
    (tomlParse yamlParse : String → Except String JValue)
    (tomlStringify yamlStringify : JValue → String)
    (f : File) (pm : PkgMinimum) (nickname v : String) (pkg2 : PackageFile)
    (doc2 : JValue) (out : String)
    (hload : parsePkg tomlParse yamlParse f = .ok pm)
    (hv : isValidSemver v = true)
    (hset : setPackageFileVersion (mkPackageFile f pm nickname) v = .ok pkg2)
    (hdoc : pkg2.pkg = some doc2)
    (hser : stringifyPkg tomlStringify yamlStringify doc2 f.extname = some out)
    (hrep : reparses tomlParse yamlParse f.extname out doc2) :
    ∃ pm2, parsePkg tomlParse yamlParse { f with content := out } = .ok pm2 ∧
      pm2.version = v := by
  obtain ⟨⟨fs, hfs⟩, hkd, hname⟩ := parsePkg_inv_core hload
  obtain ⟨doc2', hdoc2', hsvd⟩ := setVersion_inv hset hfs
  rw [hdoc2'] at hdoc
  have hd2 := (Option.some.inj hdoc).symm
  subst hd2
  obtain ⟨hnode, hsf⟩ := isValidSemver_node hv
  obtain ⟨info, hinfo⟩ : ∃ info, semverFull v = some info := by
    rw [hsf]
    exact Option.isSome_iff_exists.mp hv
  have hvne : v ≠ "" := isValidSemver_ne_empty hv
  by_cases h1 : f.extname = ".toml"
  · rw [h1] at hsvd
    obtain ⟨ptfs, hpt, hdoc2eq⟩ := setVersionInDoc_toml_inv hsvd
    have hrep2 : tomlParse out = .ok doc2 ∧ out ≠ "" := by
      rw [h1] at hrep
      simpa [reparses] using hrep
    have hkd2 : keyDeps doc2 = .ok pm.deps := by
      have hcongr : keyDeps doc2 = keyDeps (.obj fs) := by
        apply keyDeps_congr <;> rw [hdoc2eq] <;>
          exact jsLookup_setField_other fs _ "package" _ (by decide)
      rw [hcongr, ← hfs]
      exact hkd
    have hfin : finishStructured true doc2 (some (.str v))
        = .ok (PkgMinimum.mk v info.major info.minor info.patch info.prerelease
            pm.deps doc2) := by
      unfold finishStructured
      simp [hinfo, hkd2]
    have hstep := @parsePkg_toml_forward tomlParse yamlParse { f with content := out }
      doc2 v _ _ h1 hrep2.2 hrep2.1 hdoc2eq
      (jsLookup_setField_self fs "package" _) (jsLookup_setField_self ptfs "version" _)
    exact ⟨_, hstep.trans hfin, rfl⟩
  by_cases h2 : f.extname = ".json"
  · rw [h2] at hsvd
    have hdoc2eq := setVersionInDoc_json_inv (by decide) hsvd
    have houteq : out = jsonStringify doc2 ++ "\n" := by
      rw [h2] at hser
      unfold stringifyPkg at hser
      rw [if_neg (by decide), if_pos rfl] at hser
      exact (Option.some.inj hser).symm
    have hout_ne : out ≠ "" := by
      intro he
      have hd : out.data = serVal 0 doc2 ++ ['\n'] := by
        rw [houteq]
        rfl
      rw [he] at hd
      simp at hd
    have hrep2 : jsonParse out = some doc2 := by
      rw [h2] at hrep
      simpa [reparses] using hrep
    have hkd2 : keyDeps doc2 = .ok pm.deps := by
      have hcongr : keyDeps doc2 = keyDeps (.obj fs) := by
        apply keyDeps_congr <;> rw [hdoc2eq] <;>
          exact jsLookup_setField_other fs _ "version" _ (by decide)
      rw [hcongr, ← hfs]
      exact hkd
    have hfin : finishStructured true doc2 (some (.str v))
        = .ok (PkgMinimum.mk v info.major info.minor info.patch info.prerelease
            pm.deps doc2) := by
      unfold finishStructured
      simp [hinfo, hkd2]
    have hstep := @parsePkg_json_forward tomlParse yamlParse { f with content := out }
      doc2 v _ h2 hout_ne hrep2 hdoc2eq
      (jsLookup_setField_self fs "version" _)
    exact ⟨_, hstep.trans hfin, rfl⟩
  by_cases h3 : f.extname = ".yml" ∨ f.extname = ".yaml"
  · have hdoc2eq : doc2 = .obj (setField fs "version" (.str v)) := by
      refine setVersionInDoc_json_inv ?_ hsvd
      rcases h3 with h | h <;> rw [h] <;> decide
    have hrep2 : yamlParse out = .ok doc2 ∧ out ≠ "" := by
      rcases h3 with h | h <;> rw [h] at hrep <;> simpa [reparses] using hrep
    have hkd2 : keyDeps doc2 = .ok pm.deps := by
      have hcongr : keyDeps doc2 = keyDeps (.obj fs) := by
        apply keyDeps_congr <;> rw [hdoc2eq] <;>
          exact jsLookup_setField_other fs _ "version" _ (by decide)
      rw [hcongr, ← hfs]
      exact hkd
    have hnamet : optTruthy (jsLookup "name" (setField fs "version" (.str v))) = true := by
      rw [jsLookup_setField_other fs "name" "version" _ (by decide)]
      have := hname h3
      rw [hfs] at this
      exact this
    have hfin : finishStructured false doc2 (some (.str v))
        = .ok (PkgMinimum.mk v info.major info.minor info.patch none pm.deps doc2) := by
      unfold finishStructured
      simp [hinfo, hkd2]
    have hstep := @parsePkg_yaml_forward tomlParse yamlParse { f with content := out }
      doc2 v _ h3 hrep2.2 hrep2.1 hdoc2eq hnamet
      (jsLookup_setField_self fs "version" _) hvne
    exact ⟨_, hstep.trans hfin, rfl⟩
  · have hdoc2eq : doc2 = .obj (setField fs "version" (.str v)) :=
      setVersionInDoc_json_inv h1 hsvd
    have houteq : out = v := by
      unfold stringifyPkg at hser
      rw [if_neg h1, if_neg h2, if_neg h3] at hser
      rw [hdoc2eq] at hser
      simp only [jsGetField, jsLookup_setField_self] at hser
      exact (Option.some.inj hser).symm
    subst houteq
    have htrim : jsTrim out = out := isValidSemver_trim hv
    have hsv2 : semverFull (jsTrim out) = some info := by
      rw [htrim]
      exact hinfo
    have hstep := @parsePkg_bare_forward tomlParse yamlParse { f with content := out }
      info h1 h2 h3 hvne hsv2
    exact ⟨_, hstep, htrim⟩

theorem c2_witness :
    ∃ pm2, parsePkg unusedParse unusedParse { sampleFile with content := sampleOut }
      = .ok pm2 ∧ pm2.version = "2.0.0" :=
  c2_set_serialize_reparse_roundtrip unusedParse unusedParse unusedStringify unusedStringify
    sampleFile samplePm "a" "2.0.0" samplePkg2 sampleDoc2 sampleOut
    rfl (by decide) rfl rfl rfl rfl

theorem versionFrame_refl (ext : String) (doc : JValue) : versionFrame ext doc doc := by
  unfold versionFrame
  split
  · refine ⟨fun k _ => rfl, fun pt pt2 h1 h2 k _ => ?_⟩
    rw [h1] at h2
    rw [Option.some.inj h2]
  · exact fun k _ => rfl

theorem setVersionInDoc_obj_inv {ext : String} {doc : JValue} {v : String} {doc2 : JValue}
    (hnt : ext ≠ ".toml") (h : setVersionInDoc ext doc v = .ok doc2) :
    ∃ fs, doc = .obj fs ∧ doc2 = .obj (setField fs "version" (.str v)) := by
  cases doc with
  | obj fs => exact ⟨fs, rfl, setVersionInDoc_json_inv hnt h⟩
  | null =>
    exact absurd h (by unfold setVersionInDoc; by_cases hj : ext = ".json" <;>
      simp [hj, hnt, jsSetProp])
  | bool b =>
    exact absurd h (by unfold setVersionInDoc; by_cases hj : ext = ".json" <;>
      simp [hj, hnt, jsSetProp])
  | num n =>
    exact absurd h (by unfold setVersionInDoc; by_cases hj : ext = ".json" <;>
      simp [hj, hnt, jsSetProp])
  | str s =>
    exact absurd h (by unfold setVersionInDoc; by_cases hj : ext = ".json" <;>
      simp [hj, hnt, jsSetProp])
  | arr a =>
    exact absurd h (by unfold setVersionInDoc; by_cases hj : ext = ".json" <;>
      simp [hj, hnt, jsSetProp])

theorem setVersionInDoc_toml_doc_inv {doc : JValue} {v : String} {doc2 : JValue}
    (h : setVersionInDoc ".toml" doc v = .ok doc2) :
    ∃ fs ptfs, doc = .obj fs ∧ jsLookup "package" fs = some (.obj ptfs) ∧
      doc2 = .obj (setField fs "package" (.obj (setField ptfs "version" (.str v)))) := by
  cases doc with
  | obj fs =>
    obtain ⟨ptfs, hp1, hp2⟩ := setVersionInDoc_toml_inv h
    exact ⟨fs, ptfs, rfl, hp1, hp2⟩
  | null => exact absurd h (by unfold setVersionInDoc; simp [jsGetField])
  | bool b => exact absurd h (by unfold setVersionInDoc; simp [jsGetField])
  | num n => exact absurd h (by unfold setVersionInDoc; simp [jsGetField])
  | str s => exact absurd h (by unfold setVersionInDoc; simp [jsGetField])
  | arr a => exact absurd h (by unfold setVersionInDoc; simp [jsGetField])

theorem setPackageFileVersion_version_inv {pkg : PackageFile} {v : String} {f : File}
    {doc : JValue} {pkg2 : PackageFile} {doc2 : JValue}
    (hf : pkg.file = some f) (hd : pkg.pkg = some doc)
    (hset : setPackageFileVersion pkg v = .ok pkg2) (hdoc2 : pkg2.pkg = some doc2) :
    (doc.truthy = false ∧ doc2 = doc) ∨
    (doc.truthy = true ∧ setVersionInDoc f.extname doc v = .ok doc2) := by
  unfold setPackageFileVersion at hset
  simp only [hf, hd] at hset
  cases htr : doc.truthy with
  | false =>
    rw [if_neg (by simp [htr])] at hset
    left
    refine ⟨rfl, ?_⟩
    have hp2 := Except.ok.inj hset
    rw [← hp2] at hdoc2
    rw [hd] at hdoc2
    exact (Option.some.inj hdoc2).symm
  | true =>
    rw [if_pos htr] at hset
    cases hsvd : setVersionInDoc f.extname doc v with
    | error e =>
      simp only [hsvd] at hset
      exact Except.noConfusion hset
    | ok d2 =>
      simp only [hsvd] at hset
      right
      refine ⟨rfl, ?_⟩
      have hp2 := Except.ok.inj hset
      rw [← hp2] at hdoc2
      have : some d2 = some doc2 := hdoc2
      rw [← Option.some.inj this]

/-- C1 as stated is falsified on the byte-identity part by a compactly
formatted JSON manifest: serialization pretty-prints, so even setting the
version to its current value yields bytes that differ from the original
outside the version field. -/
theorem c1_counterexample : ¬ c1ByteClaim := by
  intro h
  have h2 := h unusedStringify unusedStringify unusedParse unusedParse compactFile
    samplePm "a" "1.0.0" (mkPackageFile compactFile samplePm "a") sampleDoc
    (jsonStringify sampleDoc ++ "\n") rfl rfl rfl rfl rfl
  obtain ⟨p, s, hA, hB⟩ := h2
  have hdata : compactFile.content.data = (jsonStringify sampleDoc ++ "\n").data :=
    hA.trans hB.symm
  exact absurd (string_data_inj hdata) (by decide)

/-- C1 amended: (a) for every loaded manifest of any encoding, the version
setter rewrites only the version-bearing field of the parsed document —
every other top-level field (and for TOML every other field of the
`package` table) is unchanged; (b) for a JSON manifest, the serialized
bytes decompose as a prefix and suffix surrounding the escaped version
value, where prefix and suffix depend only on the other fields; hence the
output is byte-identical outside the version value to the canonical
serialization of the original document (and to the original file whenever
the original file is in canonical serialized form) — not, in general, to an
arbitrarily formatted original file. -/
theorem c1_set_version_frame :
    (∀ (pkg : PackageFile) (v : String) (f : File) (doc : JValue) (pkg2 : PackageFile)
      (doc2 : JValue),
      pkg.file = some f → pkg.pkg = some doc →
      setPackageFileVersion pkg v = .ok pkg2 → pkg2.pkg = some doc2 →
      versionFrame f.extname doc doc2) ∧
    (∀ (tS yS : JValue → String) (pkg : PackageFile) (v : String) (f : File)
      (pre post : List (String × JValue)) (oldV : String) (pkg2 : PackageFile)
      (doc2 : JValue) (out : String),
      pkg.file = some f → f.extname = ".json" →
      pkg.pkg = some (.obj (pre ++ ("version", .str oldV) :: post)) →
      (∀ q ∈ pre, q.1 ≠ "version") →
      setPackageFileVersion pkg v = .ok pkg2 → pkg2.pkg = some doc2 →
      stringifyPkg tS yS doc2 ".json" = some out →
      out.data = jsonVerPrefixChars pre ++ (escChars v ++ jsonVerSuffixChars post) ∧
      (f.content = jsonStringify (.obj (pre ++ ("version", .str oldV) :: post)) ++ "\n" →
        f.content.data = jsonVerPrefixChars pre ++
          (escChars oldV ++ jsonVerSuffixChars post))) := by
  constructor
  · intro pkg v f doc pkg2 doc2 hf hd hset hdoc2
    rcases setPackageFileVersion_version_inv hf hd hset hdoc2 with ⟨-, rfl⟩ | ⟨-, hsvd⟩
    · exact versionFrame_refl f.extname doc2
    · by_cases ht : f.extname = ".toml"
      · rw [ht] at hsvd
        obtain ⟨fs, ptfs, rfl, hpt, rfl⟩ := setVersionInDoc_toml_doc_inv hsvd
        unfold versionFrame
        rw [if_pos ht]
        constructor
        · intro k hk
          exact jsLookup_setField_other fs k "package" _ hk
        · intro pt pt2 hpt1 hpt2 k hk
          simp only [jsGetField] at hpt1 hpt2
          rw [hpt] at hpt1
          rw [jsLookup_setField_self] at hpt2
          have e1 := Option.some.inj hpt1
          have e2 := Option.some.inj hpt2
          rw [← e1, ← e2]
          exact jsLookup_setField_other ptfs k "version" _ hk
      · obtain ⟨fs, rfl, rfl⟩ := setVersionInDoc_obj_inv ht hsvd
        unfold versionFrame
        rw [if_neg ht]
        intro k hk
        exact jsLookup_setField_other fs k "version" _ hk
  · intro tS yS pkg v f pre post oldV pkg2 doc2 out hf hext hd hpre hset hdoc2 hser
    rcases setPackageFileVersion_version_inv hf hd hset hdoc2 with ⟨htr, -⟩ | ⟨-, hsvd⟩
    · simp [JValue.truthy] at htr
    · rw [hext] at hsvd
      have hdoc2eq := setVersionInDoc_json_inv (by decide) hsvd
      rw [setField_of_split post "version" (.str oldV) (.str v) pre hpre] at hdoc2eq
      have houteq : out = jsonStringify doc2 ++ "\n" := by
        unfold stringifyPkg at hser
        rw [if_neg (by decide), if_pos rfl] at hser
        exact (Option.some.inj hser).symm
      constructor
      · rw [houteq, hdoc2eq]
        exact serObj_version_split pre post v
      · intro hcanon
        rw [hcanon]
        exact serObj_version_split pre post oldV

theorem c1_witness :
    versionFrame ".json" sampleDoc sampleDoc2 ∧
    sampleOut.data = jsonVerPrefixChars [("name", .str "a")] ++
      (escChars "2.0.0" ++ jsonVerSuffixChars [("scripts", .obj [("t", .str "x")])]) ∧
    sampleFile.content.data = jsonVerPrefixChars [("name", .str "a")] ++
      (escChars "1.0.0" ++ jsonVerSuffixChars [("scripts", .obj [("t", .str "x")])]) := by
  have hii := c1_set_version_frame.2 unusedStringify unusedStringify
    (mkPackageFile sampleFile samplePm "a") "2.0.0" sampleFile
    [("name", .str "a")] [("scripts", .obj [("t", .str "x")])] "1.0.0"
    samplePkg2 sampleDoc2 sampleOut rfl rfl rfl (by decide) rfl rfl rfl
  refine ⟨?_, hii.1, hii.2 rfl⟩
  exact c1_set_version_frame.1 (mkPackageFile sampleFile samplePm "a") "2.0.0" sampleFile
    sampleDoc samplePkg2 sampleDoc2 rfl rfl rfl rfl

end Covector
